import Mathlib

/-!
# PointAssisters: Style Resolution & Font Usage Aggregation Engine

A shallow embedding of the font-analysis core of the PointAssisters
repository (`ppta.py`, `qtppta.py`, `pptdump.py`) together with proofs
about it.

Conventions of the embedding:
* Python dictionaries that are enumerated by the code are association
  lists (`List (String × α)`) with CPython insertion-order semantics:
  assigning an existing key replaces the value in place, assigning a new
  key appends at the end.  Dictionaries that are only ever indexed are
  functions into `Option`.
* Python sets of numbers are `Finset ℕ`.
* A `try`/`except` block around the processing of a single element is
  modelled by making the element an `Except Unit _` value: an `error`
  element is skipped exactly as the `except: continue` branches do.
* `bool(s.strip())` (Python truthiness of a stripped string) is modelled
  as "some character of `s` is not whitespace", which is the same
  predicate.
-/

namespace PointAssisters

/-! Character-list forms of the Python string primitives used by the
source (`.lower()`, `.strip()`, `.startswith(...)`); a string is its
character sequence, so these are the textbook definitions. -/

/-- `s.lower()` (per-character lowercasing). -/
def strToLower (s : String) : String := String.mk (s.data.map Char.toLower)

/-- `s.strip()`: drop leading and trailing whitespace. -/
def strTrim (s : String) : String :=
  String.mk
    (((s.data.dropWhile Char.isWhitespace).reverse.dropWhile Char.isWhitespace).reverse)

/-- `s.startswith(pre)`. -/
def strStartsWith (s pre : String) : Bool := pre.data.isPrefixOf s.data

/-- `INTERNAL_FONT_MARKERS` from `ppta.py` / `qtppta.py` (both files define
the identical frozenset; `ppta.py` additionally lowercases the markers,
which are already lowercase). -/
def INTERNAL_FONT_MARKERS : List String :=
  ["+mj-lt", "+mn-lt", "+body", "+major", "+minor", "@"]

/-- `is_internal_font` from `qtppta.py` (and, with the redundant
`marker.lower()`, `ppta.py`): an empty/missing name counts as internal,
otherwise the lowercased name is tested against each marker prefix. -/
def isInternalFont (fontName : String) : Bool :=
  if fontName = "" then true
  else INTERNAL_FONT_MARKERS.any (fun m => strStartsWith (strToLower fontName) m)

/-- The marker-prefix test alone (without the empty-name case): does the
name begin, case-insensitively, with one of the internal-default markers? -/
def markerPrefixed (fontName : String) : Bool :=
  INTERNAL_FONT_MARKERS.any (fun m => strStartsWith (strToLower fontName) m)

/-- `THEME_FONT_CODES` from `ppta.py` / `qtppta.py`: the eight theme codes
and their display names. -/
def THEME_FONT_CODES : List (String × String) :=
  [("+mj-lt", "Major Latin"), ("+mn-lt", "Minor Latin"),
   ("+mj-ea", "Major East Asian"), ("+mn-ea", "Minor East Asian"),
   ("+mj-cs", "Major Complex Script"), ("+mn-cs", "Minor Complex Script"),
   ("+mj-sym", "Major Symbol"), ("+mn-sym", "Minor Symbol")]

/-- `THEME_FONT_CODES.get(code, default)`. -/
def themeCodeName (code : String) : Option String :=
  (THEME_FONT_CODES.find? (fun p => p.1 = code)).map Prod.snd

/-- The per-script typeface slots of one font (`major_fonts` /
`minor_fonts` dictionaries built by `extract_theme_fonts`); any slot may
be absent (`None`). -/
structure ScriptFonts where
  latin : Option String
  eastAsian : Option String
  complexScript : Option String
  symbol : Option String
deriving DecidableEq

/-- The theme's font scheme as extracted by `extract_theme_fonts`
(`ppta.py` / `qtppta.py`): a major and a minor `ScriptFonts` record.  A
missing `major_fonts`/`minor_fonts` key behaves like a record of absent
slots, so it is represented the same way. -/
structure ThemeFonts where
  majorFonts : ScriptFonts
  minorFonts : ScriptFonts
deriving DecidableEq

/-- A scheme with every slot absent. -/
def emptyScriptFonts : ScriptFonts := ⟨none, none, none, none⟩

/-- `resolve_theme_font` from `ppta.py` (lines 240–265): dictionary
lookups only, returning the slot's typeface or `None`; codes not starting
with `+` (including the empty string) and unrecognized codes yield
`None`. -/
def resolveThemeFont (themeFonts : ThemeFonts) (themeCode : String) : Option String :=
  if ¬ strStartsWith themeCode "+" then none
  else if themeCode = "+mj-lt" then themeFonts.majorFonts.latin
  else if themeCode = "+mn-lt" then themeFonts.minorFonts.latin
  else if themeCode = "+mj-ea" then themeFonts.majorFonts.eastAsian
  else if themeCode = "+mn-ea" then themeFonts.minorFonts.eastAsian
  else if themeCode = "+mj-cs" then themeFonts.majorFonts.complexScript
  else if themeCode = "+mn-cs" then themeFonts.minorFonts.complexScript
  else if themeCode = "+mj-sym" then themeFonts.majorFonts.symbol
  else if themeCode = "+mn-sym" then themeFonts.minorFonts.symbol
  else none

/-- `resolve_theme_font` from `pptdump.py` (lines 17–119), after the theme
part has been located and parsed into a major and a minor `ScriptFonts`
record (the code up to line 75 only locates that data).  `none` models the
Python `None` returned for an empty code; every other outcome is a string:
the slot's typeface, the literal code for non-`+` strings, and the
placeholder strings `"Unknown"` / `"Symbol"` / `"... (unresolved)"` for
absent slots and unrecognized codes. -/
def pptdumpResolveThemeFont (major minor : ScriptFonts) (themeCode : String) :
    Option String :=
  if themeCode = "" then none
  else if ¬ strStartsWith themeCode "+" then some themeCode
  else if themeCode = "+mj-lt" then some (major.latin.getD "Unknown")
  else if themeCode = "+mn-lt" then some (minor.latin.getD "Unknown")
  else if themeCode = "+mj-ea" then some (major.eastAsian.getD "Unknown")
  else if themeCode = "+mn-ea" then some (minor.eastAsian.getD "Unknown")
  else if themeCode = "+mj-cs" then some (major.complexScript.getD "Unknown")
  else if themeCode = "+mn-cs" then some (minor.complexScript.getD "Unknown")
  else if themeCode = "+mj-sym" then some (major.symbol.getD "Symbol")
  else if themeCode = "+mn-sym" then some (minor.symbol.getD "Symbol")
  else if strStartsWith themeCode "+mj-" then
    some ("Major font for script '" ++ String.mk (themeCode.data.drop 4) ++ "' (unresolved)")
  else if strStartsWith themeCode "+mn-" then
    some ("Minor font for script '" ++ String.mk (themeCode.data.drop 4) ++ "' (unresolved)")
  else some ("Unknown theme code: " ++ themeCode)

/-- EMU→point conversion of `qtppta.py` `analyze_paragraph_fonts`
(lines 287–290): `int(round(run.font.size / 12700))`.  Python's `round`
is round-half-to-even; for the integer sizes involved the float quotient
`emu / 12700` rounds exactly like the rational `emu / 12700` (half-integer
quotients are dyadic and hence exact doubles), so the conversion is
expressed exactly over ℕ. -/
def fontSizeFromEmu (emu : ℕ) : ℕ :=
  let q := emu / 12700
  let r := emu % 12700
  if r < 6350 then q
  else if 6350 < r then q + 1
  else if q % 2 = 0 then q else q + 1

/-- Size recorded by `pptdump.py` `shape_to_dict` (line 363) for a default
run style: `int(default_run_style.get('sz')) / 100`, the raw XML `sz`
value (hundredths of a point) divided by 100 — true division, recorded
exactly. -/
def pptdumpDefaultRunSize (sz : ℕ) : ℚ := (sz : ℚ) / 100

/-- Availability verdict of the font matcher (`qtppta.py`
`format_font_report`): `Installed`, `Installed (as '<name>')`, or
`Missing`. -/
inductive Verdict where
  | installed : Verdict
  | installedAs : String → Verdict
  | missing : Verdict
deriving DecidableEq

/-- `''.join(c.lower() for c in font if c.isalnum())` (`qtppta.py`
lines 590, 648): keep alphanumeric characters, lowercase them. -/
def normalizeName (s : String) : String :=
  String.mk ((s.data.filter Char.isAlphanum).map Char.toLower)

/-- `s.lower().strip()` applied to an inventory entry (`qtppta.py`
line 584). -/
def lowerTrim (s : String) : String := strTrim (strToLower s)

/-- The `normalized_system_fonts` index (`qtppta.py` lines 587–591): maps
a normalized name to the original spelling of the inventory entry; later
entries overwrite earlier ones exactly as repeated dictionary assignment
does.  One entry's assignment: -/
def normIndexStep (idx : String → Option String) (font : String) :
    String → Option String :=
  fun n => if n = normalizeName font then some font else idx n

/-- Fold the inventory into the normalized index, starting empty. -/
def normalizedIndex (inventory : List String) : String → Option String :=
  inventory.foldl normIndexStep (fun _ => none)

/-- The font matcher of `qtppta.py` `format_font_report` (lines 643–653):
exact match of the lowercased query against the lowercased-and-stripped
inventory, then the normalized fallback. -/
def classify (font : String) (inventory : List String) : Verdict :=
  if (inventory.map lowerTrim).contains (strToLower font) then .installed
  else
    match normalizedIndex inventory (normalizeName font) with
    | some matched => .installedAs matched
    | none => .missing

/-- Modelled from the spec: the font matcher exactly as claim C2's words
describe it — step 1 compares inventory entries to the query
case-insensitively (no whitespace stripping), step 2 is the same
normalized fallback.  Used only to compare the claim's wording against
`classify`. -/
def claimClassify (font : String) (inventory : List String) : Verdict :=
  if (inventory.map strToLower).contains (strToLower font) then .installed
  else
    match normalizedIndex inventory (normalizeName font) with
    | some matched => .installedAs matched
    | none => .missing

/-! ## The document model consumed by the analyzers -/

/-- One text run as the analyzers see it: its text, its optional explicit
font name (`run.font.name`) and its optional size in EMU
(`run.font.size`, always an `int` when present). -/
structure Run where
  text : String
  fontName : Option String
  size : Option ℕ
deriving DecidableEq

/-- A paragraph: its runs, each of which may fail to be read (the
per-run `try`/`except` in `analyze_paragraph_fonts` skips a failing
run). -/
abbrev Para := List (Except Unit Run)

/-- A shape as traversed by `qtppta.py` `analyze_shape_fonts`: a name, an
optional text frame (list of paragraphs), an optional table (rows of
cells of paragraphs) and the child shapes of a group (empty when the
shape is not a group). -/
inductive ShapeT where
  | mk (name : String) (textFrame : Option (List Para))
       (table : Option (List (List (List Para)))) (children : List ShapeT)

/-- Name accessor (`shape.name`). -/
def ShapeT.name : ShapeT → String
  | .mk n _ _ _ => n

/-- A slide is its shape list; a shape may fail to be read (the inner
`try`/`except continue` of `analyze_fonts`).  A slide itself may fail to
be read (the outer `try`/`except continue`). -/
abbrev SlideE := Except Unit (List (Except Unit ShapeT))

/-- The document: the slide sequence, numbered 1.. by `enumerate`. -/
abbrev Document := List SlideE

/-- `bool(run.text.strip())`: the run's text has a non-whitespace
character. -/
def hasNonWs (s : String) : Bool := s.data.any (fun c => ¬ c.isWhitespace)

/-! ## Font-usage records and maps -/

/-- The per-font info dictionaries `{"has_visible_text": _, "sizes": _}`
of `qtppta.py`. -/
structure FontInfo where
  hasVisibleText : Bool
  sizes : Finset ℕ
deriving DecidableEq

/-- The record a key is initialized with. -/
def FontInfo.init : FontInfo := ⟨false, ∅⟩

/-- Association-list maps with CPython dict semantics. -/
def lookupAssoc {α : Type} : List (String × α) → String → Option α
  | [], _ => none
  | (k', v) :: rest, k => if k' = k then some v else lookupAssoc rest k

/-- Dict assignment: replace in place if the key exists, else append. -/
def setAssoc {α : Type} : List (String × α) → String → α → List (String × α)
  | [], k, v => [(k, v)]
  | (k', v') :: rest, k, v =>
      if k' = k then (k, v) :: rest else (k', v') :: setAssoc rest k v

/-- A font-info dictionary (font name → record). -/
abbrev FontMapA := List (String × FontInfo)

/-- The record-merge step used identically in `analyze_shape_fonts`,
`analyze_fonts` and `format_font_report`: OR the visibility; union the
sizes only when the contribution is visible. -/
def mergeInfo (r c : FontInfo) : FontInfo :=
  ⟨r.hasVisibleText || c.hasVisibleText,
   if c.hasVisibleText then r.sizes ∪ c.sizes else r.sizes⟩

/-- The dictionary-merge loop (`for font_name, font_info in ...items()`)
repeated at shape, presentation and report level of `qtppta.py`:
initialize an absent key, then `mergeInfo` the contribution in. -/
def mergeFM (m c : FontMapA) : FontMapA :=
  c.foldl
    (fun acc p => setAssoc acc p.1 (mergeInfo ((lookupAssoc acc p.1).getD .init) p.2))
    m

/-! ## `qtppta.py` paragraph analysis -/

/-- State of the run loop of `analyze_paragraph_fonts`: the fonts dict,
`unknown_sizes` and `has_unknown_visible_text`. -/
structure ParaState where
  fonts : FontMapA
  unknownSizes : Finset ℕ
  unknownVisible : Bool

/-- Lines 297–309: ensure the key exists, then record visibility and (if
visible) the size. -/
def updateNamed (m : FontMapA) (n : String) (visible : Bool) (fontSize : Option ℕ) :
    FontMapA :=
  let r := (lookupAssoc m n).getD .init
  let r' := if visible then
      ⟨true, match fontSize with | some fs => insert fs r.sizes | none => r.sizes⟩
    else r
  setAssoc m n r'

/-- The body of the run loop of `analyze_paragraph_fonts`
(`qtppta.py` lines 280–317); a failing run is skipped. -/
def paraStep (st : ParaState) (re : Except Unit Run) : ParaState :=
  match re with
  | .error _ => st
  | .ok run =>
    let visible := hasNonWs run.text
    let fontSize := run.size.map fontSizeFromEmu
    match run.fontName with
    | some n =>
      if n ≠ "" ∧ isInternalFont n = false then
        { st with fonts := updateNamed st.fonts n visible fontSize }
      else
        -- `elif has_visible_text or font_size:` — 0 is falsy
        if visible = true ∨ (∃ fs, fontSize = some fs ∧ fs ≠ 0) then
          { st with
            unknownVisible := st.unknownVisible || visible
            unknownSizes :=
              match fontSize, visible with
              | some fs, true => insert fs st.unknownSizes
              | _, _ => st.unknownSizes }
        else st
    | none =>
      if visible = true ∨ (∃ fs, fontSize = some fs ∧ fs ≠ 0) then
        { st with
          unknownVisible := st.unknownVisible || visible
          unknownSizes :=
            match fontSize, visible with
            | some fs, true => insert fs st.unknownSizes
            | _, _ => st.unknownSizes }
      else st

/-- Lines 319–324: add the `"(unknown)"` entry if any run had text or a
size without usable font information. -/
def paraFinalize (st : ParaState) : FontMapA :=
  if st.unknownVisible = true ∨ st.unknownSizes.Nonempty then
    setAssoc st.fonts "(unknown)" ⟨st.unknownVisible, st.unknownSizes⟩
  else st.fonts

/-- `analyze_paragraph_fonts` of `qtppta.py` (lines 265–326). -/
def analyzeParagraphFonts (p : Para) : FontMapA :=
  paraFinalize (p.foldl paraStep ⟨[], ∅, false⟩)

/-! ## `qtppta.py` shape analysis -/

/-- Merge the maps of a list of paragraphs into an accumulator
(the text-frame and table branches of `analyze_shape_fonts`). -/
def mergeParas (m : FontMapA) (paras : List Para) : FontMapA :=
  paras.foldl (fun acc p => mergeFM acc (analyzeParagraphFonts p)) m

/-- The table branch: rows of cells of paragraphs. -/
def mergeTable (m : FontMapA) (rows : List (List (List Para))) : FontMapA :=
  rows.foldl (fun acc row =>
    row.foldl (fun acc cell => mergeParas acc cell) acc) m

mutual

/-- `analyze_shape_fonts` of `qtppta.py` (lines 328–403): text frame,
then table, then recursion into group children, merging throughout. -/
def analyzeShapeFonts : ShapeT → FontMapA
  | .mk _ tf tbl children =>
    let m1 := match tf with
      | none => ([] : FontMapA)
      | some paras => mergeParas [] paras
    let m2 := match tbl with
      | none => m1
      | some rows => mergeTable m1 rows
    mergeChildren m2 children

/-- The group branch: merge each child's map in order. -/
def mergeChildren : FontMapA → List ShapeT → FontMapA
  | m, [] => m
  | m, c :: cs => mergeChildren (mergeFM m (analyzeShapeFonts c)) cs

end

/-! ## `qtppta.py` presentation analysis -/

/-- `f"Text Shape: {shape.name}"`. -/
def shapeType (s : ShapeT) : String := "Text Shape: " ++ s.name

/-- The per-slide dictionary of `font_usage`: shape-type key → fonts map.
Note that line 426 *assigns* (`font_usage[slide_num][shape_type] = fonts`),
so a later shape with the same name replaces an earlier entry. -/
abbrev ShapeAssign := List (String × FontMapA)

/-- `font_usage`: slide number → per-slide dictionary (absent until some
shape of the slide produced a non-empty fonts map). -/
abbrev FontUsage := ℕ → Option ShapeAssign

/-- State of the slide loop of `analyze_fonts`: `font_usage` and
`all_fonts_info`. -/
structure AnalyzeState where
  fu : FontUsage
  allFonts : FontMapA

/-- Processing of one shape of slide `num` by `analyze_fonts`
(`qtppta.py` lines 420–447): a failing shape is skipped; a shape with a
non-empty fonts map is *assigned* under its shape-type key into the
slide's dictionary (line 426) and merged into `all_fonts_info`. -/
def shapeStep (num : ℕ) (st : AnalyzeState) (shE : Except Unit ShapeT) : AnalyzeState :=
  match shE with
  | .error _ => st
  | .ok sh =>
    let fonts := analyzeShapeFonts sh
    if fonts = [] then st
    else
      { fu := fun k =>
          if k = num then
            some (setAssoc ((st.fu num).getD []) (shapeType sh) fonts)
          else st.fu k
        allFonts := mergeFM st.allFonts fonts }

/-- Processing of one numbered slide by `analyze_fonts`
(`qtppta.py` lines 418–451): a failing slide is skipped and the slide's
shapes are folded through `shapeStep`. -/
def slideStep (st : AnalyzeState) (numbered : ℕ × SlideE) : AnalyzeState :=
  match numbered.2 with
  | .error _ => st
  | .ok shapes => shapes.foldl (shapeStep numbered.1) st

/-- Pair each element with its 1-based position (`enumerate(..., start=1)`). -/
def numbered : ℕ → List SlideE → List (ℕ × SlideE)
  | _, [] => []
  | n, s :: rest => (n, s) :: numbered (n + 1) rest

/-- `analyze_fonts` over an explicitly numbered slide list. -/
def analyzeFontsNumbered (l : List (ℕ × SlideE)) : AnalyzeState :=
  l.foldl slideStep ⟨fun _ => none, []⟩

/-- `analyze_fonts` of `qtppta.py` (lines 405–453). -/
def analyzeFonts (doc : Document) : AnalyzeState :=
  analyzeFontsNumbered (numbered 1 doc)

/-- The `font_to_slides` construction of `format_font_report`
(`qtppta.py` lines 594–617), read off pointwise at a font and a slide
number: internal and empty font names are filtered out (line 599); the
contributions are the stored shape maps' records for this font, merged in
order from the `FontInfo.init` record; no contribution ⇒ no entry. -/
def fontToSlides (fu : FontUsage) (font : String) (slideNum : ℕ) : Option FontInfo :=
  if font ≠ "" ∧ isInternalFont font = false then
    match ((fu slideNum).getD []).filterMap (fun p => lookupAssoc p.2 font) with
    | [] => none
    | contribs => some (contribs.foldl mergeInfo .init)
  else none

/-! ## Run-level usage aggregation (claim C3's `aggregate`)

The record update that `analyze_paragraph_fonts` (lines 297–309) performs
per run and that `format_font_report` (lines 604–617) performs per slide
record, expressed as one fold over `(slideNumber, ResolvedFont)`
observations — the `aggregate` contract of spec §4.3. -/

/-- One resolved-run observation: the slide it sits on, the bucket name
its font resolved to, whether the run has non-whitespace text, and its
point size if known. -/
structure Obs where
  slide : ℕ
  font : String
  visible : Bool
  size : Option ℕ
deriving DecidableEq

/-- Merge one observation into the per-(font, slide) record map:
initialize an absent record, OR the visibility, and record the size only
when the observation is visible. -/
def aggStep (m : String → ℕ → Option FontInfo) (o : Obs) :
    String → ℕ → Option FontInfo := fun f sl =>
  if f = o.font ∧ sl = o.slide then
    let r := (m f sl).getD .init
    some (if o.visible then
        ⟨true, match o.size with | some s => insert s r.sizes | none => r.sizes⟩
      else r)
  else m f sl

/-- Fold a sequence of observations into the per-font, per-slide usage
mapping. -/
def aggregate (l : List Obs) : String → ℕ → Option FontInfo :=
  l.foldl aggStep (fun _ _ => none)

/-! ## `ppta.py` paragraph analysis (theme-resolving variant) -/

/-- `analyze_paragraph_fonts` of `ppta.py` (lines 267–293): collects a
set of resolved font names and the `theme_font_usage` dictionary.  A
`+`-prefixed name is resolved through `resolve_theme_font`; a truthy
(non-empty) resolution is added to the set and recorded, otherwise the
code's display name maps to `"MISSING"`.  Other names are added unless
internal.  A failing run is skipped. -/
def pptaAnalyzeParagraphFonts (p : Para) (theme : ThemeFonts) :
    Finset String × List (String × String) :=
  p.foldl
    (fun st re =>
      match re with
      | .error _ => st
      | .ok run =>
        match run.fontName with
        | none => st
        | some n =>
          if n = "" then st
          else if strStartsWith n "+" then
            let themeType := (themeCodeName n).getD n
            match resolveThemeFont theme n with
            | some r =>
              if r ≠ "" then ⟨insert r st.1, setAssoc st.2 themeType r⟩
              else ⟨st.1, setAssoc st.2 themeType "MISSING"⟩
            | none => ⟨st.1, setAssoc st.2 themeType "MISSING"⟩
          else if isInternalFont n then st
          else ⟨insert n st.1, st.2⟩)
    (∅, [])

/-! ## Spec-modelled theme-code kinds (for comparing `resolve_theme_font`
against the §4.1 contract) -/

/-- Modelled from the spec: the eight symbolic theme-font references,
(major/minor) × (latin, east-asian, complex-script, symbol). -/
inductive ThemeCodeK where
  | mjLt | mnLt | mjEa | mnEa | mjCs | mnCs | mjSym | mnSym
deriving DecidableEq

/-- The code string of each theme-code kind. -/
def ThemeCodeK.code : ThemeCodeK → String
  | .mjLt => "+mj-lt" | .mnLt => "+mn-lt"
  | .mjEa => "+mj-ea" | .mnEa => "+mn-ea"
  | .mjCs => "+mj-cs" | .mnCs => "+mn-cs"
  | .mjSym => "+mj-sym" | .mnSym => "+mn-sym"

/-- Modelled from the spec (§4.1 `expand`): the typeface registered in
the scheme for the code's (major/minor, script-class) slot, or `none`
when the slot is absent. -/
def specExpand (tf : ThemeFonts) : ThemeCodeK → Option String
  | .mjLt => tf.majorFonts.latin
  | .mnLt => tf.minorFonts.latin
  | .mjEa => tf.majorFonts.eastAsian
  | .mnEa => tf.minorFonts.eastAsian
  | .mjCs => tf.majorFonts.complexScript
  | .mnCs => tf.minorFonts.complexScript
  | .mjSym => tf.majorFonts.symbol
  | .mnSym => tf.minorFonts.symbol

/-! ## Run collections and the ideal per-(font, slide) record (claim C4) -/

/-- The readable runs of a paragraph. -/
def runsOfPara (p : Para) : List Run :=
  p.filterMap (fun re => match re with | .ok r => some r | .error _ => none)

/-- The runs of a list of paragraphs. -/
def runsOfParas (paras : List Para) : List Run :=
  paras.foldl (fun acc p => acc ++ runsOfPara p) []

/-- The runs of a table. -/
def runsOfTable (rows : List (List (List Para))) : List Run :=
  rows.foldl (fun acc row => row.foldl (fun acc cell => acc ++ runsOfParas cell) acc) []

mutual

/-- All runs traversed by `analyze_shape_fonts` for a shape, in traversal
order. -/
def runsOfShape : ShapeT → List Run
  | .mk _ tf tbl children =>
    let l1 := match tf with | none => [] | some paras => runsOfParas paras
    let l2 := match tbl with | none => l1 | some rows => l1 ++ runsOfTable rows
    runsOfChildren l2 children

/-- Runs of a group's children, appended in order. -/
def runsOfChildren : List Run → List ShapeT → List Run
  | acc, [] => acc
  | acc, c :: cs => runsOfChildren (acc ++ runsOfShape c) cs

end

/-- Does the run carry exactly this (truthy, non-internal) font name? -/
def namedWith (f : String) (r : Run) : Bool := r.fontName = some f

/-- The sizes contributed by the visible runs named `f`. -/
def visibleSizes (runs : List Run) (f : String) : List ℕ :=
  runs.filterMap (fun r =>
    if namedWith f r ∧ hasNonWs r.text then r.size.map fontSizeFromEmu else none)

/-- The ideal record for a font over a run list: present iff some run
carries the name; visible iff some such run has non-whitespace text;
sizes exactly those of the visible such runs.  This is the claim-C4
semantics the pipeline is compared against. -/
def idealAt (runs : List Run) (f : String) : Option FontInfo :=
  if runs.any (namedWith f) then
    some ⟨runs.any (fun r => namedWith f r && hasNonWs r.text),
          (visibleSizes runs f).toFinset⟩
  else none

/-- The readable runs of slide `sl` (1-based) of a document. -/
def runsOnSlide (doc : Document) (sl : ℕ) : List Run :=
  if sl = 0 then []
  else
    match doc.get? (sl - 1) with
    | some (.ok shapes) =>
        (shapes.filterMap (fun shE =>
          match shE with | .ok sh => some sh | .error _ => none)).foldl
          (fun acc sh => acc ++ runsOfShape sh) []
    | _ => []

/-! ## Scrubbing failing elements (claim C9) -/

/-- Drop the failing runs of a paragraph. -/
def scrubPara (p : Para) : Para := p.filter (fun re => re.isOk)

mutual

/-- Drop every failing run inside a shape, recursively. -/
def scrubShape : ShapeT → ShapeT
  | .mk n tf tbl children =>
    .mk n (tf.map (fun paras => paras.map scrubPara))
      (tbl.map (fun rows => rows.map (fun row => row.map (fun cell => cell.map scrubPara))))
      (scrubShapes children)

/-- Scrub a list of shapes. -/
def scrubShapes : List ShapeT → List ShapeT
  | [] => []
  | c :: cs => scrubShape c :: scrubShapes cs

end

/-- Replace a failing slide by an empty slide (its number is preserved),
drop failing shapes, and scrub failing runs: the residual document with
every unreadable element neutralized. -/
def scrubDoc (doc : Document) : Document :=
  doc.map (fun slE =>
    match slE with
    | .error _ => .ok []
    | .ok shapes =>
        .ok ((shapes.filterMap (fun shE =>
          match shE with | .ok sh => some sh | .error _ => none)).map
            (fun sh => .ok (scrubShape sh))))

/-- No element of the document fails to read. -/
def errorFree (doc : Document) : Prop :=
  ∀ slE ∈ doc, ∃ shapes, slE = .ok shapes ∧
    ∀ shE ∈ shapes, ∃ sh, shE = .ok sh

/-! ## Shared helper lemmas -/

/-- A fold over a list commutes with permutations when the step function
is right-commutative. -/
theorem foldl_perm_of_comm {α β : Type} {f : β → α → β}
    (H : ∀ b a₁ a₂, f (f b a₁) a₂ = f (f b a₂) a₁) :
    ∀ {l₁ l₂ : List α}, l₁.Perm l₂ → ∀ b, l₁.foldl f b = l₂.foldl f b := by
  intro l₁ l₂ p
  induction p with
  | nil => intro b; rfl
  | cons x _ ih => intro b; simpa using ih (f b x)
  | swap x y l => intro b; simp [List.foldl, H]
  | trans _ _ ih₁ ih₂ => intro b; exact (ih₁ b).trans (ih₂ b)

/-- The observation step of `aggregate` is right-commutative. -/
theorem aggStep_comm (m : String → ℕ → Option FontInfo) (a b : Obs) :
    aggStep (aggStep m a) b = aggStep (aggStep m b) a := by
  funext f sl
  simp only [aggStep]
  by_cases ha : f = a.font ∧ sl = a.slide <;>
    by_cases hb : f = b.font ∧ sl = b.slide
  · simp only [if_pos ha, if_pos hb, Option.getD_some]
    cases hva : a.visible <;> cases hvb : b.visible <;>
      cases hsa : a.size <;> cases hsb : b.size <;>
        simp [hva, hvb, hsa, hsb, Finset.Insert.comm]
  · simp only [if_pos ha, if_neg hb]
  · simp only [if_neg ha, if_pos hb]
  · simp only [if_neg ha, if_neg hb]

/-! ## Claim C3 -/

/-- C3: aggregation is order-independent — `aggregate` applied to any
permutation of a sequence of (slideNumber, ResolvedFont) observations
yields an identical per-font, per-slide record mapping, because the
per-record merge (OR of visibility; sizes recorded only from visible
observations) is commutative and associative. -/
theorem aggregate_perm_invariant :
    ∀ l₁ l₂ : List Obs, l₁.Perm l₂ → aggregate l₁ = aggregate l₂ := by
  intro l₁ l₂ p
  exact foldl_perm_of_comm aggStep_comm p _

/-- Witness for C3 at a concrete permutation. -/
theorem aggregate_perm_invariant_witness :
    aggregate [⟨1, "Calibri", true, some 18⟩, ⟨1, "Arial", false, none⟩] =
      aggregate [⟨1, "Arial", false, none⟩, ⟨1, "Calibri", true, some 18⟩] :=
  aggregate_perm_invariant _ _ (by decide)

/-! ## Claim C5 -/

/-- C5 counterexample: `pptdump.py`'s `resolve_theme_font` does not
represent an absent slot by an absent value — on the code `+mn-ea` with
the minor east-asian slot undefined it returns the string `"Unknown"`,
not `none`. -/
theorem pptdump_resolve_absent_slot_not_none :
    pptdumpResolveThemeFont emptyScriptFonts emptyScriptFonts "+mn-ea" =
      some "Unknown" ∧ some "Unknown" ≠ (none : Option String) := by
  exact ⟨by decide, by decide⟩

/-- C5 amended: `ppta.py`'s `resolve_theme_font` does satisfy the §4.1
contract — for each of the eight theme codes it returns exactly the
scheme's slot for that (major/minor, script-class) pair, `some` when the
slot is defined and `none` when it is absent, as a total pure function;
`pptdump.py`'s variant instead returns placeholder strings for absent
slots. -/
theorem resolveThemeFont_eq_specExpand :
    ∀ (tf : ThemeFonts) (k : ThemeCodeK), resolveThemeFont tf k.code = specExpand tf k := by
  intro tf k
  cases k <;> rfl

/-! ## Claim C7 -/

/-- C7 counterexample: at the cited `pptdump.py` site the size unit is
hundredths of a point, recorded as `sz / 100`: the integer size value
1800 is recorded as 18 points, which is more than one point away from
`1800 / 12700 ≈ 0.14`, so it is not `s / 12700` rounded to the nearest
whole point nor to one decimal place. -/
theorem pptdump_size_not_emu_ratio :
    pptdumpDefaultRunSize 1800 = 18 ∧ (18 : ℚ) - 1800 / 12700 > 1 := by
  constructor
  · norm_num [pptdumpDefaultRunSize]
  · norm_num

/-- C7 amended: sizes given in EMU (`qtppta.py`) are converted at the
fixed ratio 12700 EMU per point and rounded to the nearest whole point
(ties to even) — the result is at least as close to `emu / 12700` as any
other whole number of points — and 228600 EMU is recorded as 18 points;
sizes given in the XML `sz` attribute (`pptdump.py`) are hundredths of a
point recorded as exactly `sz / 100`. -/
theorem fontSizeFromEmu_nearest :
    (∀ emu k : ℕ, ((emu : ℤ) - 12700 * fontSizeFromEmu emu).natAbs ≤
        ((emu : ℤ) - 12700 * k).natAbs) ∧
      fontSizeFromEmu 228600 = 18 ∧
      ∀ sz : ℕ, 100 * pptdumpDefaultRunSize sz = sz := by
  refine ⟨?_, by decide, ?_⟩
  · intro emu k
    have hdm := Nat.div_add_mod emu 12700
    have hlt : emu % 12700 < 12700 := Nat.mod_lt _ (by norm_num)
    simp only [fontSizeFromEmu]
    split_ifs <;> push_cast <;> omega
  · intro sz
    simp only [pptdumpDefaultRunSize]
    ring

/-! ## Claims C2 and C8 — the font matcher -/

/-- A hit in the normalized index comes from an inventory entry with that
normalized spelling (generalized over the fold's accumulator). -/
theorem normIndex_fold_some (inv : List String) :
    ∀ (g : String → Option String) (n m : String),
      (inv.foldl normIndexStep g) n = some m →
      g n = some m ∨ (m ∈ inv ∧ normalizeName m = n) := by
  induction inv with
  | nil => intro g n m h; exact Or.inl h
  | cons a rest ih =>
    intro g n m h
    rcases ih (normIndexStep g a) n m h with h' | h'
    · by_cases hn : n = normalizeName a
      · right
        simp only [normIndexStep, if_pos hn, Option.some.injEq] at h'
        exact ⟨h' ▸ List.mem_cons_self a rest, h' ▸ hn.symm⟩
      · left
        simpa only [normIndexStep, if_neg hn] using h'
    · exact Or.inr ⟨List.mem_cons_of_mem a h'.1, h'.2⟩

/-- The normalized index misses exactly when no inventory entry has the
normalized spelling (generalized over the fold's accumulator). -/
theorem normIndex_fold_none (inv : List String) :
    ∀ (g : String → Option String) (n : String),
      (inv.foldl normIndexStep g) n = none ↔
        g n = none ∧ ∀ e ∈ inv, normalizeName e ≠ n := by
  induction inv with
  | nil => intro g n; simp
  | cons a rest ih =>
    intro g n
    rw [List.foldl_cons, ih]
    constructor
    · rintro ⟨h1, h2⟩
      by_cases hn : n = normalizeName a
      · simp only [normIndexStep, if_pos hn] at h1
        exact absurd h1 (by simp)
      · simp only [normIndexStep, if_neg hn] at h1
        refine ⟨h1, ?_⟩
        intro e he
        rcases List.mem_cons.mp he with rfl | he'
        · exact fun hc => hn hc.symm
        · exact h2 e he'
    · rintro ⟨h1, h2⟩
      have hn : n ≠ normalizeName a := fun hc => h2 a (List.mem_cons_self a rest) hc.symm
      refine ⟨by simp only [normIndexStep, if_neg hn]; exact h1, ?_⟩
      intro e he
      exact h2 e (List.mem_cons_of_mem a he)

/-- Hits of `normalizedIndex` name a real inventory entry with the same
normalized spelling. -/
theorem normalizedIndex_some {inv : List String} {n m : String}
    (h : normalizedIndex inv n = some m) : m ∈ inv ∧ normalizeName m = n := by
  rcases normIndex_fold_some inv _ n m h with h' | h'
  · exact absurd h' (by simp)
  · exact h'

/-- `normalizedIndex` misses exactly when no entry matches. -/
theorem normalizedIndex_none_iff {inv : List String} {n : String} :
    normalizedIndex inv n = none ↔ ∀ e ∈ inv, normalizeName e ≠ n := by
  rw [normalizedIndex, normIndex_fold_none]
  simp

/-- The exact-match step of `classify`, as a membership statement. -/
theorem classify_exact_iff (font : String) (inv : List String) :
    ((inv.map lowerTrim).contains (strToLower font) = true) ↔
      ∃ e ∈ inv, lowerTrim e = strToLower font := by
  rw [List.elem_iff]
  simp only [List.mem_map]

/-- C2 counterexample: the claim's step 1 compares inventory entries to
the query case-insensitively only, but the code also strips whitespace
from the inventory entry — on query `"Arial"` with inventory
`{" Arial"}` the code answers `Installed` while the claim's two-step
procedure answers `InstalledAs " Arial"`. -/
theorem classify_claim_divergence :
    classify "Arial" [" Arial"] = Verdict.installed ∧
      claimClassify "Arial" [" Arial"] = Verdict.installedAs " Arial" := by
  exact ⟨by decide, by decide⟩

/-- C2 amended: `classify` is the claim's two-step procedure with step 1
reading "some inventory entry, lowercased and whitespace-stripped, equals
the lowercased query": `Installed` exactly on such an exact match;
`InstalledAs m` only when step 1 fails and `m` is an inventory entry
whose lowercase-alphanumeric reduction equals the query's; `Missing`
exactly when both steps fail; and the claim's three examples hold. -/
theorem classify_two_step :
    ∀ (font : String) (inventory : List String),
      (classify font inventory = .installed ↔
        ∃ e ∈ inventory, lowerTrim e = strToLower font) ∧
      (∀ m, classify font inventory = .installedAs m →
        (¬ ∃ e ∈ inventory, lowerTrim e = strToLower font) ∧
          m ∈ inventory ∧ normalizeName m = normalizeName font) ∧
      (classify font inventory = .missing ↔
        (¬ ∃ e ∈ inventory, lowerTrim e = strToLower font) ∧
          ∀ e ∈ inventory, normalizeName e ≠ normalizeName font) ∧
      classify "Arial" ["arial"] = .installed ∧
      classify "Arial-Bold" ["Arial Bold"] = .installedAs "Arial Bold" ∧
      classify "Zapfino" [] = .missing := by
  intro font inventory
  refine ⟨?_, ?_, ?_, by decide, by decide, by decide⟩
  · constructor
    · intro hc
      unfold classify at hc
      split_ifs at hc with h
      · exact (classify_exact_iff font inventory).mp h
      · cases hidx : normalizedIndex inventory (normalizeName font) <;>
          rw [hidx] at hc <;> simp at hc
    · intro hex
      unfold classify
      rw [if_pos ((classify_exact_iff font inventory).mpr hex)]
  · intro m hm
    unfold classify at hm
    split_ifs at hm with h
    cases hidx : normalizedIndex inventory (normalizeName font) with
    | none => rw [hidx] at hm; exact Verdict.noConfusion hm
    | some m' =>
        rw [hidx] at hm
        simp only [Verdict.installedAs.injEq] at hm
        subst hm
        exact ⟨fun hex => h ((classify_exact_iff font inventory).mpr hex),
          normalizedIndex_some hidx⟩
  · unfold classify
    split_ifs with h
    · constructor
      · intro hc; exact hc.elim
      · rintro ⟨h1, _⟩
        exact absurd ((classify_exact_iff font inventory).mp h) h1
    · cases hidx : normalizedIndex inventory (normalizeName font) with
      | none =>
        constructor
        · intro _
          exact ⟨fun hex => h ((classify_exact_iff font inventory).mpr hex),
            normalizedIndex_none_iff.mp hidx⟩
        · intro _; rfl
      | some m' =>
        constructor
        · intro hc; exact Verdict.noConfusion hc
        · rintro ⟨_, h2⟩
          have hnone := normalizedIndex_none_iff.mpr h2
          rw [hnone] at hidx
          exact Option.noConfusion hidx

/-- Witness for C2's amended theorem at the normalized-match example. -/
theorem classify_two_step_witness :
    (¬ ∃ e ∈ ["Arial Bold"], lowerTrim e = strToLower "Arial-Bold") ∧
      "Arial Bold" ∈ ["Arial Bold"] ∧
      normalizeName "Arial Bold" = normalizeName "Arial-Bold" :=
  (classify_two_step "Arial-Bold" ["Arial Bold"]).2.1 "Arial Bold" (by decide)

/-- C8 counterexample: a document font differing from the inventory entry
by case *and trailing whitespace* does not succeed at the exact-match
step — `classify "times new roman " {"Times New Roman"}` is
`InstalledAs "Times New Roman"`, not plain `Installed`, because only the
inventory side is whitespace-stripped. -/
theorem classify_trailing_space_not_installed :
    classify "times new roman " ["Times New Roman"] =
        Verdict.installedAs "Times New Roman" ∧
      Verdict.installedAs "Times New Roman" ≠ Verdict.installed := by
  exact ⟨by decide, by decide⟩

/-- C8 amended: whitespace is normalized on the inventory side only — any
entry whose lowercased-and-stripped spelling equals the lowercased
document name yields plain `Installed` (so pure case differences match
exactly), while a document name with trailing whitespace falls through to
the normalized step and is classified `InstalledAs` with the inventory's
original spelling. -/
theorem classify_case_insensitive_installed :
    (∀ (font : String) (inventory : List String) (e : String),
      e ∈ inventory → lowerTrim e = strToLower font →
      classify font inventory = .installed) ∧
    classify "times new roman" ["Times New Roman"] = .installed ∧
    classify "times new roman " ["Times New Roman"] =
      .installedAs "Times New Roman" := by
  refine ⟨?_, by decide, by decide⟩
  intro font inventory e he hq
  exact (classify_two_step font inventory).1.mpr ⟨e, he, hq⟩

/-- Witness for C8's amended theorem: a pure case difference classifies
as `Installed`. -/
theorem classify_case_insensitive_installed_witness :
    classify "times new roman" ["Times New Roman"] = Verdict.installed :=
  classify_case_insensitive_installed.1 "times new roman" ["Times New Roman"]
    "Times New Roman" (by decide) (by decide)

/-! ## Claim C1 — theme-coded runs -/

/-- A display name returned by `themeCodeName` comes from the table. -/
theorem themeCodeName_mem {code fname : String}
    (h : themeCodeName code = some fname) : (code, fname) ∈ THEME_FONT_CODES := by
  unfold themeCodeName at h
  rcases Option.map_eq_some'.mp h with ⟨⟨c, f⟩, hfind, hsnd⟩
  have hmem := List.mem_of_find?_eq_some hfind
  have hp : c = code := by simpa using List.find?_some hfind
  simp only at hsnd
  subst hp
  subst hsnd
  exact hmem

/-- Every tabulated theme code is non-empty and starts with `+`. -/
theorem themeCode_facts {code fname : String} (h : themeCodeName code = some fname) :
    code ≠ "" ∧ strStartsWith code "+" = true := by
  have hmem := themeCodeName_mem h
  simp only [THEME_FONT_CODES, List.mem_cons, List.not_mem_nil, or_false,
    Prod.mk.injEq] at hmem
  rcases hmem with ⟨rfl, -⟩ | ⟨rfl, -⟩ | ⟨rfl, -⟩ | ⟨rfl, -⟩ | ⟨rfl, -⟩ | ⟨rfl, -⟩ |
    ⟨rfl, -⟩ | ⟨rfl, -⟩ <;> exact ⟨by decide, by decide⟩

/-- C1 counterexample: in `qtppta.py`'s `analyze_paragraph_fonts` a run
whose font string is the theme code `+mn-ea` is not resolved against the
scheme at all — it is aggregated under the literal code string, and the
`"(unknown)"` bucket stays empty. -/
theorem theme_code_literal_bucket :
    lookupAssoc (analyzeParagraphFonts [.ok ⟨"x", some "+mn-ea", none⟩]) "+mn-ea" =
        some ⟨true, ∅⟩ ∧
      lookupAssoc (analyzeParagraphFonts [.ok ⟨"x", some "+mn-ea", none⟩])
        "(unknown)" = none := by
  exact ⟨by decide, by decide⟩

/-- C1 amended: theme-code resolution happens only in `ppta.py`'s
`analyze_paragraph_fonts`: there a run carrying one of the eight theme
codes contributes the scheme's typeface to the font set and to the
theme-usage map under the code's display name when the slot is defined
(and non-empty), and contributes no font at all — the usage map records
the sentinel `"MISSING"`, not an `"(unknown)"` bucket — when the slot is
absent.  (`qtppta.py` never resolves theme codes: `+mj-lt`/`+mn-lt` are
internal markers routed to `"(unknown)"`, and the other six codes are
recorded as literal font names, as the counterexample shows.) -/
theorem ppta_theme_run_resolution :
    ∀ (theme : ThemeFonts) (code fname text : String) (sz : Option ℕ),
      themeCodeName code = some fname →
      ((∀ t, resolveThemeFont theme code = some t → t ≠ "" →
          (pptaAnalyzeParagraphFonts [.ok ⟨text, some code, sz⟩] theme).1 = {t} ∧
            lookupAssoc (pptaAnalyzeParagraphFonts [.ok ⟨text, some code, sz⟩] theme).2
              fname = some t) ∧
        (resolveThemeFont theme code = none ∨ resolveThemeFont theme code = some "" →
          (pptaAnalyzeParagraphFonts [.ok ⟨text, some code, sz⟩] theme).1 = ∅ ∧
            lookupAssoc (pptaAnalyzeParagraphFonts [.ok ⟨text, some code, sz⟩] theme).2
              fname = some "MISSING")) := by
  intro theme code fname text sz h
  obtain ⟨h0, h1⟩ := themeCode_facts h
  constructor
  · intro t hr ht
    simp only [pptaAnalyzeParagraphFonts, List.foldl, if_neg h0, if_pos h1, h,
      Option.getD_some, hr]
    rw [if_pos ht]
    constructor <;> simp [setAssoc, lookupAssoc]
  · intro hr
    rcases hr with hr | hr <;>
      simp only [pptaAnalyzeParagraphFonts, List.foldl, if_neg h0, if_pos h1, h,
        Option.getD_some, hr]
    · constructor <;> simp [setAssoc, lookupAssoc]
    · rw [if_neg (by simp)]
      constructor <;> simp [setAssoc, lookupAssoc]

/-- Witness for C1's amended theorem: `+mn-ea` with a defined minor
east-asian slot resolves to the scheme's typeface. -/
theorem ppta_theme_run_resolution_witness :
    (pptaAnalyzeParagraphFonts [.ok ⟨"x", some "+mn-ea", none⟩]
        ⟨emptyScriptFonts, ⟨none, some "MS Mincho", none, none⟩⟩).1 = {"MS Mincho"} ∧
      lookupAssoc (pptaAnalyzeParagraphFonts [.ok ⟨"x", some "+mn-ea", none⟩]
        ⟨emptyScriptFonts, ⟨none, some "MS Mincho", none, none⟩⟩).2
        "Minor East Asian" = some "MS Mincho" :=
  (ppta_theme_run_resolution ⟨emptyScriptFonts, ⟨none, some "MS Mincho", none, none⟩⟩
    "+mn-ea" "Minor East Asian" "x" none (by decide)).1 "MS Mincho" (by decide)
    (by decide)

/-! ## Claim C6 — internal markers are filtered everywhere -/

/-- A marker-prefixed name is internal. -/
theorem isInternalFont_of_markerPrefixed {n : String}
    (h : markerPrefixed n = true) : isInternalFont n = true := by
  unfold isInternalFont
  split_ifs with he
  · rfl
  · simpa [markerPrefixed] using h

/-- C6: no font string beginning (case-insensitively) with one of the
internal-default marker prefixes ever appears in the reported per-font
usage mapping — `font_to_slides` filters them, so they never receive an
availability verdict — and a run carrying such a marker contributes to
the `"(unknown)"` bucket (when it has visible text), never to a bucket
under its own name. -/
theorem internal_markers_never_reported :
    (∀ (fu : FontUsage) (f : String) (sl : ℕ),
        fontToSlides fu f sl ≠ none → markerPrefixed f = false) ∧
      (∀ (r : Run) (n : String), r.fontName = some n → markerPrefixed n = true →
        lookupAssoc (analyzeParagraphFonts [.ok r]) n = none ∧
          (hasNonWs r.text = true →
            lookupAssoc (analyzeParagraphFonts [.ok r]) "(unknown)" ≠ none)) := by
  constructor
  · intro fu f sl hne
    by_contra hmp
    rw [Bool.not_eq_false] at hmp
    apply hne
    unfold fontToSlides
    rw [if_neg]
    rintro ⟨-, hif⟩
    rw [isInternalFont_of_markerPrefixed hmp] at hif
    exact Bool.noConfusion hif
  · intro r n hfn hmark
    have hint := isInternalFont_of_markerPrefixed hmark
    have hnunk : "(unknown)" ≠ n := by
      rintro rfl
      revert hmark
      decide
    have hcond : ¬ (n ≠ "" ∧ isInternalFont n = false) := by
      rintro ⟨-, h2⟩
      rw [hint] at h2
      exact Bool.noConfusion h2
    simp only [analyzeParagraphFonts, List.foldl, paraStep, hfn, if_neg hcond]
    split_ifs with helif
    · constructor
      · simp only [paraFinalize]
        split_ifs with hfin
        · simp [setAssoc, lookupAssoc, hnunk]
        · rfl
      · intro hv
        simp only [paraFinalize, Bool.false_or]
        rw [if_pos (Or.inl (by simp [hv]))]
        simp [setAssoc, lookupAssoc]
    · constructor
      · simp [paraFinalize, lookupAssoc]
      · intro hv
        exact absurd (Or.inl hv) helif

/-- Witness for C6 at a concrete marker-carrying run. -/
theorem internal_markers_never_reported_witness :
    lookupAssoc (analyzeParagraphFonts [.ok ⟨"x", some "+body", none⟩]) "+body" =
        none ∧
      lookupAssoc (analyzeParagraphFonts [.ok ⟨"x", some "+body", none⟩])
        "(unknown)" ≠ none := by
  have h := internal_markers_never_reported.2 ⟨"x", some "+body", none⟩ "+body" rfl
    (by decide)
  exact ⟨h.1, h.2 (by decide)⟩

/-! ## Claim C10 — the sizes-imply-visibility invariant -/

/-- The record invariant: a non-empty size set forces visible text. -/
def InvInfo (i : FontInfo) : Prop := i.sizes.Nonempty → i.hasVisibleText = true

/-- Every entry of a font-info dictionary respects the invariant. -/
def InvEntries (m : FontMapA) : Prop := ∀ q ∈ m, InvInfo q.2

/-- The freshly initialized record respects the invariant. -/
theorem invInfo_init : InvInfo FontInfo.init := by
  intro h
  exact absurd h (by simp [FontInfo.init])

/-- A successful lookup names an entry of the association list. -/
theorem mem_of_lookupAssoc {α : Type} :
    ∀ {m : List (String × α)} {k : String} {v : α},
      lookupAssoc m k = some v → (k, v) ∈ m := by
  intro m
  induction m with
  | nil => intro k v h; exact absurd h (by simp [lookupAssoc])
  | cons p rest ih =>
    intro k v h
    rw [lookupAssoc] at h
    split_ifs at h with he
    · cases p
      simp only [Option.some.injEq] at h
      simp_all
    · exact List.mem_cons_of_mem p (ih h)

/-- Entries after an assignment are the new pair or old entries. -/
theorem mem_setAssoc {α : Type} :
    ∀ {m : List (String × α)} {k : String} {v : α} {q : String × α},
      q ∈ setAssoc m k v → q = (k, v) ∨ q ∈ m := by
  intro m
  induction m with
  | nil =>
    intro k v q h
    simp only [setAssoc, List.mem_singleton] at h
    exact Or.inl h
  | cons p rest ih =>
    intro k v q h
    rw [setAssoc] at h
    split_ifs at h with he
    · rcases List.mem_cons.mp h with rfl | h'
      · exact Or.inl rfl
      · exact Or.inr (List.mem_cons_of_mem p h')
    · rcases List.mem_cons.mp h with rfl | h'
      · exact Or.inr (List.mem_cons_self _ _)
      · rcases ih h' with h'' | h''
        · exact Or.inl h''
        · exact Or.inr (List.mem_cons_of_mem p h'')

/-- The record merge preserves the invariant. -/
theorem invInfo_mergeInfo {r c : FontInfo} (hr : InvInfo r) (hc : InvInfo c) :
    InvInfo (mergeInfo r c) := by
  intro hne
  unfold mergeInfo at hne ⊢
  by_cases hcv : c.hasVisibleText = true
  · simp [hcv]
  · simp only [Bool.not_eq_true] at hcv
    simp only [hcv, if_false, Bool.or_false] at hne ⊢
    exact hr hne

/-- The record looked up during a merge respects the invariant. -/
theorem invInfo_getD {m : FontMapA} (hm : InvEntries m) (k : String) :
    InvInfo ((lookupAssoc m k).getD .init) := by
  cases h : lookupAssoc m k with
  | none => exact invInfo_init
  | some v => exact hm (k, v) (mem_of_lookupAssoc h)

/-- Assignment of a good record preserves the invariant. -/
theorem invEntries_setAssoc {m : FontMapA} {k : String} {v : FontInfo}
    (hm : InvEntries m) (hv : InvInfo v) : InvEntries (setAssoc m k v) := by
  intro q hq
  rcases mem_setAssoc hq with rfl | hq'
  · exact hv
  · exact hm q hq'

/-- The dictionary merge preserves the invariant. -/
theorem invEntries_mergeFM :
    ∀ {c m : FontMapA}, InvEntries m → InvEntries c → InvEntries (mergeFM m c) := by
  intro c
  induction c with
  | nil => intro m hm _; exact hm
  | cons p rest ih =>
    intro m hm hc
    rw [mergeFM, List.foldl_cons]
    exact ih
      (invEntries_setAssoc hm
        (invInfo_mergeInfo (invInfo_getD hm p.1) (hc p (List.mem_cons_self p rest))))
      (fun q hq => hc q (List.mem_cons_of_mem p hq))

/-- The invariant carried along the run loop of
`analyze_paragraph_fonts`. -/
def ParaInv (st : ParaState) : Prop :=
  InvEntries st.fonts ∧ (st.unknownSizes.Nonempty → st.unknownVisible = true)

/-- One run step preserves the paragraph-state invariant. -/
theorem paraStep_inv {st : ParaState} (h : ParaInv st) (re : Except Unit Run) :
    ParaInv (paraStep st re) := by
  obtain ⟨h1, h2⟩ := h
  cases re with
  | error e => exact ⟨h1, h2⟩
  | ok run =>
    simp only [paraStep]
    cases hfn : run.fontName with
    | some n =>
      dsimp only
      split_ifs with hc hel
      · refine ⟨?_, h2⟩
        apply invEntries_setAssoc h1
        split_ifs with hv
        · intro _; rfl
        · exact invInfo_getD h1 n
      · refine ⟨h1, ?_⟩
        cases hsz : Option.map fontSizeFromEmu run.size with
        | none => simp only [hsz]; intro hne; simp [h2 hne]
        | some fs =>
          cases hv : hasNonWs run.text with
          | true => simp [hsz, hv]
          | false => simp only [hsz, hv]; intro hne; simp [h2 hne]
      · exact ⟨h1, h2⟩
    | none =>
      dsimp only
      split_ifs with hel
      · refine ⟨h1, ?_⟩
        cases hsz : Option.map fontSizeFromEmu run.size with
        | none => simp only [hsz]; intro hne; simp [h2 hne]
        | some fs =>
          cases hv : hasNonWs run.text with
          | true => simp [hsz, hv]
          | false => simp only [hsz, hv]; intro hne; simp [h2 hne]
      · exact ⟨h1, h2⟩

/-- The paragraph map respects the invariant. -/
theorem invEntries_analyzeParagraphFonts (p : Para) :
    InvEntries (analyzeParagraphFonts p) := by
  have hfold : ∀ (l : Para) (st : ParaState), ParaInv st → ParaInv (l.foldl paraStep st) := by
    intro l
    induction l with
    | nil => intro st h; exact h
    | cons re rest ih => intro st h; exact ih _ (paraStep_inv h re)
  have hst : ParaInv (p.foldl paraStep ⟨[], ∅, false⟩) :=
    hfold p _ ⟨by intro q hq; exact absurd hq (by simp), by simp⟩
  unfold analyzeParagraphFonts paraFinalize
  split_ifs with hfin
  · exact invEntries_setAssoc hst.1 (fun hne => hst.2 hne)
  · exact hst.1

/-- Merging a list of paragraphs preserves the invariant. -/
theorem invEntries_mergeParas :
    ∀ (paras : List Para) {m : FontMapA}, InvEntries m →
      InvEntries (mergeParas m paras) := by
  intro paras
  induction paras with
  | nil => intro m hm; exact hm
  | cons p rest ih =>
    intro m hm
    rw [mergeParas, List.foldl_cons]
    exact ih (invEntries_mergeFM hm (invEntries_analyzeParagraphFonts p))

/-- Merging a table preserves the invariant. -/
theorem invEntries_mergeTable :
    ∀ (rows : List (List (List Para))) {m : FontMapA}, InvEntries m →
      InvEntries (mergeTable m rows) := by
  intro rows
  induction rows with
  | nil => intro m hm; exact hm
  | cons row rest ih =>
    intro m hm
    rw [mergeTable, List.foldl_cons]
    apply ih
    clear ih
    induction row generalizing m with
    | nil => exact hm
    | cons cell rrest rih =>
      rw [List.foldl_cons]
      exact rih (invEntries_mergeParas cell hm)

mutual

/-- The shape map respects the invariant (text frame, table and nested
groups included). -/
theorem invEntries_analyzeShapeFonts : ∀ s : ShapeT, InvEntries (analyzeShapeFonts s)
  | .mk n tf tbl children => by
    rw [analyzeShapeFonts.eq_def]
    apply invEntries_mergeChildren children
    have h1 : InvEntries (match tf with
        | none => ([] : FontMapA)
        | some paras => mergeParas [] paras) := by
      cases tf with
      | none => intro q hq; exact absurd hq (by simp)
      | some paras =>
        exact invEntries_mergeParas paras (by intro q hq; exact absurd hq (by simp))
    cases tbl with
    | none => exact h1
    | some rows => exact invEntries_mergeTable rows h1

/-- Merging group children preserves the invariant. -/
theorem invEntries_mergeChildren :
    ∀ (l : List ShapeT) (m : FontMapA), InvEntries m → InvEntries (mergeChildren m l)
  | [], m, hm => hm
  | c :: cs, m, hm => by
    rw [mergeChildren]
    exact invEntries_mergeChildren cs _
      (invEntries_mergeFM hm (invEntries_analyzeShapeFonts c))

end

/-- The invariant carried along the slide loop of `analyze_fonts`. -/
def AnalyzeInv (st : AnalyzeState) : Prop :=
  (∀ (k : ℕ) (sa : ShapeAssign), st.fu k = some sa → ∀ p ∈ sa, InvEntries p.2) ∧
    InvEntries st.allFonts

/-- One numbered slide preserves the analysis invariant. -/
theorem slideStep_inv {st : AnalyzeState} (h : AnalyzeInv st) (numbered : ℕ × SlideE) :
    AnalyzeInv (slideStep st numbered) := by
  obtain ⟨num, slE⟩ := numbered
  cases slE with
  | error e => exact h
  | ok shapes =>
    simp only [slideStep]
    induction shapes generalizing st with
    | nil => exact h
    | cons shE rest ih =>
      rw [List.foldl_cons]
      apply ih
      cases shE with
      | error e => exact h
      | ok sh =>
        simp only [shapeStep]
        split_ifs with hemp
        · exact h
        · constructor
          · intro k sa hk p hp
            simp only at hk
            split_ifs at hk with hknum
            · simp only [Option.some.injEq] at hk
              subst hk
              rcases mem_setAssoc hp with rfl | hp'
              · exact invEntries_analyzeShapeFonts sh
              · cases hold : st.fu num with
                | none => rw [hold] at hp'; exact absurd hp' (by simp)
                | some sa0 =>
                  rw [hold] at hp'
                  exact h.1 num sa0 hold p hp'
            · exact h.1 k sa hk p hp
          · exact invEntries_mergeFM h.2 (invEntries_analyzeShapeFonts sh)

/-- C10: every intermediate font-info map — paragraph level, shape level
(tables and nested groups included), presentation level
(`all_fonts_info`), and the final per-slide report records from
`font_to_slides` — satisfies the invariant that a record with a non-empty
size set has `has_visible_text = true`, and every merge step preserves
it. -/
theorem sizes_imply_visible_invariant :
    (∀ p : Para, InvEntries (analyzeParagraphFonts p)) ∧
      (∀ s : ShapeT, InvEntries (analyzeShapeFonts s)) ∧
      (∀ doc : Document, InvEntries (analyzeFonts doc).allFonts) ∧
      (∀ (doc : Document) (f : String) (sl : ℕ) (info : FontInfo),
        fontToSlides (analyzeFonts doc).fu f sl = some info → InvInfo info) := by
  have hdoc : ∀ doc : Document, AnalyzeInv (analyzeFonts doc) := by
    intro doc
    unfold analyzeFonts analyzeFontsNumbered
    have : ∀ (l : List (ℕ × SlideE)) (st : AnalyzeState), AnalyzeInv st →
        AnalyzeInv (l.foldl slideStep st) := by
      intro l
      induction l with
      | nil => intro st h; exact h
      | cons x rest ih => intro st h; exact ih _ (slideStep_inv h x)
    exact this _ _ ⟨by intro k sa hk; exact absurd hk (by simp), by intro q hq; exact absurd hq (by simp)⟩
  refine ⟨invEntries_analyzeParagraphFonts, invEntries_analyzeShapeFonts, fun doc => (hdoc doc).2, ?_⟩
  intro doc f sl info hft
  unfold fontToSlides at hft
  split_ifs at hft with hgood
  cases hcon : ((( analyzeFonts doc).fu sl).getD []).filterMap (fun p => lookupAssoc p.2 f) with
  | nil => rw [hcon] at hft; exact absurd hft (by simp)
  | cons c0 crest =>
    rw [hcon] at hft
    simp only [Option.some.injEq] at hft
    subst hft
    have hall : ∀ i ∈ c0 :: crest, InvInfo i := by
      intro i hi
      rw [← hcon] at hi
      rcases List.mem_filterMap.mp hi with ⟨p, hp, hlk⟩
      cases hfu : (analyzeFonts doc).fu sl with
      | none => rw [hfu] at hp; exact absurd hp (by simp)
      | some sa =>
        rw [hfu] at hp
        simp only [Option.getD_some] at hp
        exact (hdoc doc).1 sl sa hfu p hp (f, i) (mem_of_lookupAssoc hlk)
    have hfold : ∀ (l : List FontInfo) (b : FontInfo), InvInfo b →
        (∀ i ∈ l, InvInfo i) → InvInfo (l.foldl mergeInfo b) := by
      intro l
      induction l with
      | nil => intro b hb _; exact hb
      | cons i rest ih =>
        intro b hb hl
        rw [List.foldl_cons]
        exact ih _ (invInfo_mergeInfo hb (hl i (List.mem_cons_self i rest)))
          (fun j hj => hl j (List.mem_cons_of_mem i hj))
    exact hfold _ _ invInfo_init hall

/-- Witness for C10 at a concrete paragraph with a visible sized run. -/
theorem sizes_imply_visible_invariant_witness :
    lookupAssoc (analyzeParagraphFonts [.ok ⟨"hello", some "Calibri", some 228600⟩])
        "Calibri" = some ⟨true, {18}⟩ ∧
      (⟨true, {18}⟩ : FontInfo).hasVisibleText = true := by
  refine ⟨by decide, ?_⟩
  exact sizes_imply_visible_invariant.1 [.ok ⟨"hello", some "Calibri", some 228600⟩]
    ("Calibri", ⟨true, {18}⟩) (mem_of_lookupAssoc (by decide)) (by decide)

/-! ## Claim C9 — isolation of element read failures -/

/-- Failing runs contribute nothing to a paragraph. -/
theorem analyzeParagraphFonts_scrub (p : Para) :
    analyzeParagraphFonts (scrubPara p) = analyzeParagraphFonts p := by
  unfold analyzeParagraphFonts scrubPara
  congr 1
  have h : ∀ (l : Para) (st : ParaState),
      (l.filter (fun re => re.isOk)).foldl paraStep st = l.foldl paraStep st := by
    intro l
    induction l with
    | nil => intro st; rfl
    | cons re rest ih =>
      intro st
      cases re with
      | error e =>
        simp only [List.filter_cons]
        rw [show (Except.error e : Except Unit Run).isOk = false from rfl]
        simp only [Bool.false_eq_true, if_false, List.foldl_cons]
        exact ih st
      | ok r =>
        simp only [List.filter_cons]
        rw [show (Except.ok r : Except Unit Run).isOk = true from rfl]
        simp only [if_true, List.foldl_cons]
        exact ih _
  exact h p _

/-- Failing runs contribute nothing to a paragraph list. -/
theorem mergeParas_scrub (paras : List Para) :
    ∀ m : FontMapA, mergeParas m (paras.map scrubPara) = mergeParas m paras := by
  induction paras with
  | nil => intro m; rfl
  | cons p rest ih =>
    intro m
    simp only [List.map_cons, mergeParas, List.foldl_cons,
      analyzeParagraphFonts_scrub]
    exact ih _

/-- Failing runs contribute nothing to one table row. -/
theorem mergeTable_row_scrub (row : List (List Para)) :
    ∀ m : FontMapA,
      (row.map (fun cell => cell.map scrubPara)).foldl
          (fun acc cell => mergeParas acc cell) m =
        row.foldl (fun acc cell => mergeParas acc cell) m := by
  induction row with
  | nil => intro m; rfl
  | cons cell rrest rih =>
    intro m
    simp only [List.map_cons, List.foldl_cons]
    rw [show mergeParas m (cell.map scrubPara) = mergeParas m cell from
      mergeParas_scrub cell m]
    exact rih _

/-- Failing runs contribute nothing to a table. -/
theorem mergeTable_scrub (rows : List (List (List Para))) :
    ∀ m : FontMapA,
      mergeTable m (rows.map (fun row => row.map (fun cell => cell.map scrubPara))) =
        mergeTable m rows := by
  induction rows with
  | nil => intro m; rfl
  | cons row rest ih =>
    intro m
    simp only [List.map_cons, mergeTable, List.foldl_cons]
    rw [mergeTable_row_scrub row m]
    exact ih _

mutual

/-- Failing runs contribute nothing to a shape. -/
theorem analyzeShapeFonts_scrub :
    ∀ s : ShapeT, analyzeShapeFonts (scrubShape s) = analyzeShapeFonts s
  | .mk n tf tbl children => by
    cases tf with
    | none =>
      cases tbl with
      | none =>
        rw [scrubShape, analyzeShapeFonts.eq_def, analyzeShapeFonts.eq_def]
        dsimp only [Option.map_none']
        exact mergeChildren_scrub children _
      | some rows =>
        rw [scrubShape, analyzeShapeFonts.eq_def, analyzeShapeFonts.eq_def]
        dsimp only [Option.map_none', Option.map_some']
        rw [mergeTable_scrub rows]
        exact mergeChildren_scrub children _
    | some paras =>
      cases tbl with
      | none =>
        rw [scrubShape, analyzeShapeFonts.eq_def, analyzeShapeFonts.eq_def]
        dsimp only [Option.map_none', Option.map_some']
        rw [mergeParas_scrub paras]
        exact mergeChildren_scrub children _
      | some rows =>
        rw [scrubShape, analyzeShapeFonts.eq_def, analyzeShapeFonts.eq_def]
        dsimp only [Option.map_some']
        rw [mergeParas_scrub paras, mergeTable_scrub rows]
        exact mergeChildren_scrub children _

/-- Failing runs contribute nothing to group children. -/
theorem mergeChildren_scrub :
    ∀ (l : List ShapeT) (m : FontMapA),
      mergeChildren m (scrubShapes l) = mergeChildren m l
  | [], _ => rfl
  | c :: cs, m => by
    rw [scrubShapes, mergeChildren, mergeChildren, analyzeShapeFonts_scrub c]
    exact mergeChildren_scrub cs _

end

/-- Scrubbing preserves the shape name. -/
theorem shapeType_scrub (s : ShapeT) : shapeType (scrubShape s) = shapeType s := by
  cases s
  rfl

/-- One numbered slide behaves the same after scrubbing: a failing slide
equals an empty slide, failing shapes drop out, failing runs drop out. -/
theorem slideStep_scrub (numbered : ℕ × SlideE) (st : AnalyzeState) :
    slideStep st (numbered.1,
        match numbered.2 with
        | .error _ => .ok []
        | .ok shapes =>
            .ok ((shapes.filterMap (fun shE =>
              match shE with | .ok sh => some sh | .error _ => none)).map
                (fun sh => .ok (scrubShape sh)))) =
      slideStep st numbered := by
  obtain ⟨num, slE⟩ := numbered
  cases slE with
  | error e => rfl
  | ok shapes =>
    simp only [slideStep]
    induction shapes generalizing st with
    | nil => rfl
    | cons shE rest ih =>
      cases shE with
      | error e =>
        simp only [List.filterMap_cons, List.foldl_cons]
        exact ih st
      | ok sh =>
        simp only [List.filterMap_cons, List.map_cons, List.foldl_cons]
        rw [show shapeStep num st (.ok (scrubShape sh)) = shapeStep num st (.ok sh) from ?_]
        · exact ih _
        · simp only [shapeStep, analyzeShapeFonts_scrub, shapeType_scrub]

/-- C9 counterexample: a failing slide keeps its number, so the
aggregated result is not the analysis of the document with the failing
elements removed — with slide 1 unreadable and a visible Calibri run on
slide 2, the per-slide mapping records Calibri on slide 2, while the
document with the failing slide removed records it on slide 1. -/
theorem failing_slide_not_removal :
    fontToSlides (analyzeFonts
        [.error (), .ok [.ok (.mk "A" (some [[.ok ⟨"hello", some "Calibri", none⟩]]) none [])]]).fu
        "Calibri" 2 = some ⟨true, ∅⟩ ∧
      fontToSlides (analyzeFonts
        [.ok [.ok (.mk "A" (some [[.ok ⟨"hello", some "Calibri", none⟩]]) none [])]]).fu
        "Calibri" 2 = none ∧
      (analyzeFonts
        [.error (), .ok [.ok (.mk "A" (some [[.ok ⟨"hello", some "Calibri", none⟩]]) none [])]]).fu 2 ≠
      (analyzeFonts
        [.ok [.ok (.mk "A" (some [[.ok ⟨"hello", some "Calibri", none⟩]]) none [])]]).fu 2 := by
  exact ⟨by decide, by decide, by decide⟩

/-- C9 amended: element-level read failures are isolated and never
propagate (the analyzers are total), all remaining elements are still
processed, and the aggregated result equals the analysis of the residual
document in which failing runs and shapes are removed and a failing slide
is replaced by an empty slide — preserving the original slide numbering —
which is itself free of failing elements.  (Removing a failing slide
outright renumbers the later slides, as the counterexample shows.) -/
theorem analyzeFonts_scrub :
    ∀ doc : Document, analyzeFonts (scrubDoc doc) = analyzeFonts doc ∧
      errorFree (scrubDoc doc) := by
  intro doc
  constructor
  · unfold analyzeFonts
    have h : ∀ (n : ℕ) (st : AnalyzeState),
        (numbered n (scrubDoc doc)).foldl slideStep st =
          (numbered n doc).foldl slideStep st := by
      induction doc with
      | nil => intro n st; rfl
      | cons slE rest ih =>
        intro n st
        simp only [scrubDoc, List.map_cons, numbered, List.foldl_cons]
        rw [show slideStep st (n,
            match slE with
            | .error _ => .ok []
            | .ok shapes =>
                .ok ((shapes.filterMap (fun shE =>
                  match shE with | .ok sh => some sh | .error _ => none)).map
                    (fun sh => .ok (scrubShape sh)))) = slideStep st (n, slE) from
          slideStep_scrub (n, slE) st]
        exact ih (n + 1) _
    exact h 1 _
  · intro slE hsl
    unfold scrubDoc at hsl
    rcases List.mem_map.mp hsl with ⟨slE0, _, hmap⟩
    cases slE0 with
    | error e =>
      exact ⟨[], hmap.symm, by intro shE h; exact absurd h (by simp)⟩
    | ok shapes =>
      refine ⟨_, hmap.symm, ?_⟩
      intro shE hm
      rcases List.mem_map.mp hm with ⟨sh, _, rfl⟩
      exact ⟨scrubShape sh, rfl⟩

/-! ## Claim C4 — the per-(font, slide) records against the run-level
semantics -/

/-- The readable shape of a possibly-failing shape. -/
def okShape : Except Unit ShapeT → Option ShapeT :=
  fun shE => match shE with | .ok sh => some sh | .error _ => none

/-- Shifting the accumulator out of an append-fold. -/
theorem foldl_append_shift {α β : Type} (g : β → List α) :
    ∀ (l : List β) (acc : List α),
      l.foldl (fun a p => a ++ g p) acc = acc ++ l.foldl (fun a p => a ++ g p) [] := by
  intro l
  induction l with
  | nil => intro acc; simp
  | cons p rest ih =>
    intro acc
    simp only [List.foldl_cons, List.nil_append]
    rw [ih (acc ++ g p), ih (g p), List.append_assoc]

/-- `runsOfParas` unfolds one paragraph at a time. -/
theorem runsOfParas_cons (p : Para) (rest : List Para) :
    runsOfParas (p :: rest) = runsOfPara p ++ runsOfParas rest := by
  unfold runsOfParas
  simp only [List.foldl_cons, List.nil_append]
  exact foldl_append_shift runsOfPara rest (runsOfPara p)

/-- The pointwise union of two records (the effect of merging two
independent contributions that both respect the invariant). -/
def combineInfo (a b : FontInfo) : FontInfo :=
  ⟨a.hasVisibleText || b.hasVisibleText, a.sizes ∪ b.sizes⟩

/-- Union of two optional records. -/
def combineOptC : Option FontInfo → Option FontInfo → Option FontInfo
  | none, o => o
  | some a, none => some a
  | some a, some b => some (combineInfo a b)

/-- The source's record-merge step on an optional accumulator:
initialize if absent, then `mergeInfo`. -/
def optMerge (o c : Option FontInfo) : Option FontInfo :=
  match c with
  | none => o
  | some ci => some (mergeInfo (o.getD .init) ci)

/-- Merging into a fresh record is the identity on invariant-respecting
contributions. -/
theorem mergeInfo_init {c : FontInfo} (hc : InvInfo c) :
    mergeInfo .init c = c := by
  obtain ⟨v, s⟩ := c
  unfold mergeInfo FontInfo.init
  cases v with
  | true => simp
  | false =>
    simp only [Bool.or_false, if_false, Bool.false_eq_true]
    have hs : s = ∅ := by
      by_contra hne
      have := hc (Finset.nonempty_iff_ne_empty.mpr hne)
      simp at this
    simp [hs]

/-- The merge is associative over invariant-respecting contributions. -/
theorem mergeInfo_assoc {a b c : FontInfo} (hb : InvInfo b) (hc : InvInfo c) :
    mergeInfo (mergeInfo a b) c = mergeInfo a (combineInfo b c) := by
  obtain ⟨bv, bs⟩ := b
  obtain ⟨cv, cs⟩ := c
  unfold mergeInfo combineInfo
  cases bv with
  | true =>
    cases cv with
    | true => simp [Finset.union_assoc, Bool.or_assoc]
    | false =>
      have hcs : cs = ∅ := by
        by_contra hne
        have := hc (Finset.nonempty_iff_ne_empty.mpr hne)
        simp at this
      simp [hcs, Bool.or_assoc]
  | false =>
    have hbs : bs = ∅ := by
      by_contra hne
      have := hb (Finset.nonempty_iff_ne_empty.mpr hne)
      simp at this
    cases cv with
    | true => simp [hbs, Bool.or_assoc]
    | false =>
      have hcs : cs = ∅ := by
        by_contra hne
        have := hc (Finset.nonempty_iff_ne_empty.mpr hne)
        simp at this
      simp [hbs, hcs, Bool.or_assoc]

/-- The union of invariant-respecting records respects the invariant. -/
theorem invInfo_combineInfo {a b : FontInfo} (ha : InvInfo a) (hb : InvInfo b) :
    InvInfo (combineInfo a b) := by
  intro hne
  rcases hne with ⟨x, hx⟩
  rcases Finset.mem_union.mp hx with h | h
  · simp [combineInfo, ha ⟨x, h⟩]
  · simp [combineInfo, hb ⟨x, h⟩]

/-- `optMerge` is associative over invariant-respecting contributions. -/
theorem optMerge_assoc {o a b : Option FontInfo}
    (ha : ∀ i, a = some i → InvInfo i) (hb : ∀ i, b = some i → InvInfo i) :
    optMerge (optMerge o a) b = optMerge o (combineOptC a b) := by
  cases a with
  | none => cases b <;> rfl
  | some ai =>
    cases b with
    | none => rfl
    | some bi =>
      simp only [optMerge, combineOptC, Option.getD_some]
      rw [mergeInfo_assoc (ha ai rfl) (hb bi rfl)]

/-- Values of `idealAt` respect the invariant. -/
theorem idealAt_inv {runs : List Run} {f : String} :
    ∀ i, idealAt runs f = some i → InvInfo i := by
  intro i hi
  unfold idealAt at hi
  split_ifs at hi with h
  simp only [Option.some.injEq] at hi
  subst hi
  intro hne
  rcases hne with ⟨s, hs⟩
  rw [List.mem_toFinset] at hs
  rcases List.mem_filterMap.mp hs with ⟨r, hr, hcond⟩
  simp only
  split_ifs at hcond with hc
  rw [List.any_eq_true]
  exact ⟨r, hr, by simp [hc.1, hc.2]⟩

/-- `idealAt` distributes over appended run lists. -/
theorem idealAt_append (A B : List Run) (f : String) :
    idealAt (A ++ B) f = combineOptC (idealAt A f) (idealAt B f) := by
  unfold idealAt
  have hvs : visibleSizes (A ++ B) f = visibleSizes A f ++ visibleSizes B f := by
    unfold visibleSizes
    exact List.filterMap_append A B _
  by_cases hA : A.any (namedWith f) = true <;> by_cases hB : B.any (namedWith f) = true
  · rw [if_pos (by simp [List.any_append, hA, hB]), if_pos hA, if_pos hB]
    simp only [combineOptC, combineInfo, Option.some.injEq, FontInfo.mk.injEq]
    constructor
    · simp [List.any_append]
    · rw [hvs, List.toFinset_append]
  · rw [if_pos (by simp [List.any_append, hA]), if_pos hA, if_neg hB]
    simp only [combineOptC, Option.some.injEq]
    have hBvs : visibleSizes B f = [] := by
      rw [List.eq_nil_iff_forall_not_mem]
      intro s hs
      rcases List.mem_filterMap.mp hs with ⟨r, hr, hcond⟩
      split_ifs at hcond with hc
      rw [Bool.not_eq_true] at hB
      have := List.any_eq_true.mpr ⟨r, hr, hc.1⟩
      rw [hB] at this
      exact Bool.noConfusion this
    rw [FontInfo.mk.injEq]
    constructor
    · have hBv : B.any (fun r => namedWith f r && hasNonWs r.text) = false := by
        rw [Bool.not_eq_true] at hB
        rw [← Bool.not_eq_true, List.any_eq_true]
        rintro ⟨r, hr, hc⟩
        have := List.any_eq_true.mpr ⟨r, hr, ((Bool.and_eq_true _ _).mp hc).1⟩
        rw [hB] at this
        exact Bool.noConfusion this
      simp [List.any_append, hBv]
    · rw [hvs, hBvs]
      simp
  · rw [if_pos (by simp [List.any_append, hB]), if_neg hA, if_pos hB]
    simp only [combineOptC, Option.some.injEq]
    have hAvs : visibleSizes A f = [] := by
      rw [List.eq_nil_iff_forall_not_mem]
      intro s hs
      rcases List.mem_filterMap.mp hs with ⟨r, hr, hcond⟩
      split_ifs at hcond with hc
      rw [Bool.not_eq_true] at hA
      have := List.any_eq_true.mpr ⟨r, hr, hc.1⟩
      rw [hA] at this
      exact Bool.noConfusion this
    rw [FontInfo.mk.injEq]
    constructor
    · have hAv : A.any (fun r => namedWith f r && hasNonWs r.text) = false := by
        rw [Bool.not_eq_true] at hA
        rw [← Bool.not_eq_true, List.any_eq_true]
        rintro ⟨r, hr, hc⟩
        have := List.any_eq_true.mpr ⟨r, hr, ((Bool.and_eq_true _ _).mp hc).1⟩
        rw [hA] at this
        exact Bool.noConfusion this
      simp [List.any_append, hAv]
    · rw [hvs, hAvs]
      simp
  · rw [if_neg (by simp [List.any_append, hA, hB]), if_neg hA, if_neg hB]
    rfl

/-- Lookup after assignment. -/
theorem lookupAssoc_setAssoc {α : Type} :
    ∀ (m : List (String × α)) (k k' : String) (v : α),
      lookupAssoc (setAssoc m k v) k' = if k = k' then some v else lookupAssoc m k' := by
  intro m
  induction m with
  | nil =>
    intro k k' v
    simp only [setAssoc, lookupAssoc]
  | cons p rest ih =>
    intro k k' v
    obtain ⟨pk, pv⟩ := p
    by_cases he : pk = k
    · subst he
      by_cases h2 : pk = k'
      · simp only [setAssoc, if_pos rfl, lookupAssoc, if_pos h2]
      · simp only [setAssoc, if_pos rfl, lookupAssoc, if_neg h2]
    · by_cases h2 : k = k'
      · subst h2
        simp only [setAssoc, if_neg he, lookupAssoc, if_neg he, ih, if_pos rfl]
      · by_cases hp : pk = k'
        · simp only [setAssoc, if_neg he, lookupAssoc, if_pos hp, if_neg h2]
        · simp only [setAssoc, if_neg he, lookupAssoc, if_neg hp, ih, if_neg h2]

/-- Lookup misses exactly off the key set. -/
theorem lookupAssoc_eq_none_iff {α : Type} :
    ∀ (m : List (String × α)) (k : String),
      lookupAssoc m k = none ↔ k ∉ m.map Prod.fst := by
  intro m
  induction m with
  | nil => intro k; simp [lookupAssoc]
  | cons p rest ih =>
    intro k
    rw [lookupAssoc]
    split_ifs with he
    · simp [he]
    · rw [ih]
      simp only [List.map_cons, List.mem_cons]
      constructor
      · rintro h (h1 | h2)
        · exact he h1.symm
        · exact h h2
      · intro h h2
        exact h (Or.inr h2)

/-- Assigning a fresh key appends. -/
theorem setAssoc_fresh {α : Type} :
    ∀ (m : List (String × α)) (k : String) (v : α),
      lookupAssoc m k = none → setAssoc m k v = m ++ [(k, v)] := by
  intro m
  induction m with
  | nil => intro k v _; rfl
  | cons p rest ih =>
    intro k v h
    rw [lookupAssoc] at h
    split_ifs at h with he
    rw [setAssoc, if_neg he, ih k v h, List.cons_append]

/-- No key occurs twice. -/
def KeysNodup {α : Type} (m : List (String × α)) : Prop :=
  (m.map Prod.fst).Nodup

/-- Assignment preserves distinct keys. -/
theorem keysNodup_setAssoc {α : Type} :
    ∀ {m : List (String × α)} {k : String} {v : α},
      KeysNodup m → KeysNodup (setAssoc m k v) := by
  intro m
  induction m with
  | nil => intro k v _; simp [setAssoc, KeysNodup]
  | cons p rest ih =>
    intro k v h
    rw [KeysNodup, List.map_cons, List.nodup_cons] at h
    rw [setAssoc]
    split_ifs with he
    · rw [KeysNodup, List.map_cons, List.nodup_cons]
      exact ⟨he ▸ h.1, h.2⟩
    · rw [KeysNodup, List.map_cons, List.nodup_cons]
      constructor
      · intro hcon
        rcases List.mem_map.mp hcon with ⟨q, hq, hfst⟩
        rcases mem_setAssoc hq with rfl | hq'
        · exact he hfst.symm
        · exact h.1 (List.mem_map.mpr ⟨q, hq', hfst⟩)
      · exact ih h.2

/-- Merging preserves distinct keys of the target. -/
theorem keysNodup_mergeFM :
    ∀ (c : FontMapA) {m : FontMapA}, KeysNodup m → KeysNodup (mergeFM m c) := by
  intro c
  induction c with
  | nil => intro m hm; exact hm
  | cons p rest ih =>
    intro m hm
    rw [mergeFM, List.foldl_cons]
    exact ih (keysNodup_setAssoc hm)

/-- Merging a distinct-keyed contribution acts on each key once. -/
theorem lookupAssoc_mergeFM :
    ∀ (c : FontMapA), KeysNodup c → ∀ (m : FontMapA) (f : String),
      lookupAssoc (mergeFM m c) f = optMerge (lookupAssoc m f) (lookupAssoc c f) := by
  intro c
  induction c with
  | nil =>
    intro _ m f
    simp [mergeFM, lookupAssoc, optMerge]
  | cons p rest ih =>
    intro hc m f
    rw [KeysNodup, List.map_cons, List.nodup_cons] at hc
    rw [mergeFM, List.foldl_cons, ← mergeFM, ih hc.2]
    by_cases hpf : p.1 = f
    · have hrest : lookupAssoc rest f = none := by
        rw [lookupAssoc_eq_none_iff]
        exact fun hmem => hc.1 (hpf ▸ hmem)
      rw [hrest, lookupAssoc, if_pos hpf, lookupAssoc_setAssoc, if_pos hpf]
      simp only [optMerge]
      rw [hpf]
    · rw [lookupAssoc, if_neg hpf, lookupAssoc_setAssoc, if_neg hpf]

/-- The paragraph-state fonts map keeps distinct keys. -/
theorem keysNodup_analyzeParagraphFonts (p : Para) :
    KeysNodup (analyzeParagraphFonts p) := by
  have h : ∀ (l : Para) (st : ParaState), KeysNodup st.fonts →
      KeysNodup (l.foldl paraStep st).fonts := by
    intro l
    induction l with
    | nil => intro st h; exact h
    | cons re rest ih =>
      intro st h
      apply ih
      cases re with
      | error e => exact h
      | ok run =>
        simp only [paraStep]
        cases run.fontName with
        | some n =>
          dsimp only
          split_ifs with h1 h2
          · exact keysNodup_setAssoc h
          · exact h
          · exact h
        | none =>
          dsimp only
          split_ifs with h1
          · exact h
          · exact h
  unfold analyzeParagraphFonts paraFinalize
  split_ifs with hfin
  · exact keysNodup_setAssoc (h p _ (by simp [KeysNodup]))
  · exact h p _ (by simp [KeysNodup])

/-- Every map in the qtppta pipeline keeps distinct keys. -/
theorem keysNodup_mergeParas (paras : List Para) :
    ∀ {m : FontMapA}, KeysNodup m → KeysNodup (mergeParas m paras) := by
  induction paras with
  | nil => intro m hm; exact hm
  | cons p rest ih =>
    intro m hm
    rw [mergeParas, List.foldl_cons]
    exact ih (keysNodup_mergeFM _ hm)

/-- Table merges keep distinct keys. -/
theorem keysNodup_mergeTable (rows : List (List (List Para))) :
    ∀ {m : FontMapA}, KeysNodup m → KeysNodup (mergeTable m rows) := by
  induction rows with
  | nil => intro m hm; exact hm
  | cons row rest ih =>
    intro m hm
    rw [mergeTable, List.foldl_cons]
    apply ih
    clear ih
    induction row generalizing m with
    | nil => exact hm
    | cons cell rrest rih => exact rih (keysNodup_mergeParas cell hm)

/-- Child merges keep distinct keys. -/
theorem keysNodup_mergeChildren (l : List ShapeT) :
    ∀ {m : FontMapA}, KeysNodup m → KeysNodup (mergeChildren m l) := by
  induction l with
  | nil => intro m hm; exact hm
  | cons c cs ih =>
    intro m hm
    rw [mergeChildren]
    exact ih (keysNodup_mergeFM _ hm)

/-- The shape map keeps distinct keys. -/
theorem keysNodup_analyzeShapeFonts (s : ShapeT) :
    KeysNodup (analyzeShapeFonts s) := by
  obtain ⟨n, tf, tbl, children⟩ := s
  rw [analyzeShapeFonts.eq_def]
  dsimp only
  apply keysNodup_mergeChildren
  have h1 : KeysNodup (match tf with
      | none => ([] : FontMapA)
      | some paras => mergeParas [] paras) := by
    cases tf with
    | none => simp [KeysNodup]
    | some paras => exact keysNodup_mergeParas paras (by simp [KeysNodup])
  cases tbl with
  | none => exact h1
  | some rows => exact keysNodup_mergeTable rows h1

/-- The record update a single named run performs
(`qtppta.py` lines 297–309, per key). -/
def addRunInfo (o : Option FontInfo) (visible : Bool) (fontSize : Option ℕ) :
    FontInfo :=
  let r := o.getD .init
  if visible then
    ⟨true, match fontSize with | some fs => insert fs r.sizes | none => r.sizes⟩
  else r

/-- `updateNamed` is an assignment of `addRunInfo`. -/
theorem updateNamed_eq (m : FontMapA) (n : String) (visible : Bool)
    (fontSize : Option ℕ) :
    updateNamed m n visible fontSize =
      setAssoc m n (addRunInfo (lookupAssoc m n) visible fontSize) := rfl

/-- The per-key observation step over one run. -/
def runUpd (f : String) (o : Option FontInfo) (r : Run) : Option FontInfo :=
  if namedWith f r then
    some (addRunInfo o (hasNonWs r.text) (r.size.map fontSizeFromEmu))
  else o

/-- `runsOfPara` drops a failing run. -/
theorem runsOfPara_cons_error (e : Unit) (rest : Para) :
    runsOfPara (.error e :: rest) = runsOfPara rest := by
  simp [runsOfPara, List.filterMap_cons]

/-- `runsOfPara` keeps a readable run. -/
theorem runsOfPara_cons_ok (run : Run) (rest : Para) :
    runsOfPara (.ok run :: rest) = run :: runsOfPara rest := by
  simp [runsOfPara, List.filterMap_cons]

/-- One run of the paragraph loop acts on key `f` as `runUpd` (for a
non-empty, non-internal `f`). -/
theorem paraStep_lookup {f : String} (hf0 : f ≠ "") (hfi : isInternalFont f = false)
    (st : ParaState) (run : Run) :
    lookupAssoc ((paraStep st (.ok run)).fonts) f =
      runUpd f (lookupAssoc st.fonts f) run := by
  simp only [paraStep]
  cases hfn : run.fontName with
  | some n =>
    dsimp only
    split_ifs with hc hel
    · rw [updateNamed_eq, lookupAssoc_setAssoc]
      by_cases hnf : n = f
      · subst hnf
        rw [if_pos rfl, runUpd, if_pos (by simp [namedWith, hfn])]
      · rw [if_neg hnf, runUpd, if_neg (by simp [namedWith, hfn, hnf])]
    · by_cases hnf : n = f
      · exact absurd ⟨hnf ▸ hf0, hnf ▸ hfi⟩ hc
      · rw [runUpd, if_neg (by simp [namedWith, hfn, hnf])]
    · by_cases hnf : n = f
      · exact absurd ⟨hnf ▸ hf0, hnf ▸ hfi⟩ hc
      · rw [runUpd, if_neg (by simp [namedWith, hfn, hnf])]
  | none =>
    dsimp only
    split_ifs with hel <;>
      rw [runUpd, if_neg (by simp [namedWith, hfn])]

/-- The paragraph loop acts on key `f` as the run-by-run fold. -/
theorem para_fold_lookup {f : String} (hf0 : f ≠ "") (hfi : isInternalFont f = false) :
    ∀ (l : Para) (st : ParaState),
      lookupAssoc ((l.foldl paraStep st).fonts) f =
        (runsOfPara l).foldl (runUpd f) (lookupAssoc st.fonts f) := by
  intro l
  induction l with
  | nil => intro st; rfl
  | cons re rest ih =>
    intro st
    rw [List.foldl_cons]
    cases re with
    | error e =>
      rw [ih, runsOfPara_cons_error]
      rfl
    | ok run =>
      rw [ih, runsOfPara_cons_ok, List.foldl_cons,
        paraStep_lookup hf0 hfi st run]

/-- A single run's observation equals its ideal record merged in. -/
theorem runUpd_single (f : String) (o : Option FontInfo) (r : Run) :
    runUpd f o r = optMerge o (idealAt [r] f) := by
  by_cases hn : namedWith f r = true
  · rw [runUpd, if_pos hn]
    have hany : [r].any (namedWith f) = true := by simp [hn]
    rw [idealAt, if_pos hany]
    simp only [optMerge, Option.some.injEq]
    cases hv : hasNonWs r.text with
    | false =>
      have hvs : visibleSizes [r] f = [] := by
        simp [visibleSizes, List.filterMap_cons, hv]
      simp only [addRunInfo]
      rw [if_neg (by simp [hv])]
      rw [show ([r].any fun x => namedWith f x && hasNonWs x.text) = false by
        simp [hv]]
      rw [hvs]
      simp [mergeInfo]
    | true =>
      simp only [addRunInfo]
      rw [if_pos (by simp [hv])]
      rw [show ([r].any fun x => namedWith f x && hasNonWs x.text) = true by
        simp [hn, hv]]
      cases hs : r.size with
      | none =>
        have hvs : visibleSizes [r] f = [] := by
          simp [visibleSizes, List.filterMap_cons, hn, hv, hs]
        rw [hvs]
        simp [mergeInfo]
      | some s =>
        have hvs : visibleSizes [r] f = [fontSizeFromEmu s] := by
          simp [visibleSizes, List.filterMap_cons, hn, hv, hs]
        rw [hvs]
        simp only [mergeInfo, Option.map_some', List.toFinset_cons, List.toFinset_nil,
          Bool.or_true, if_true, FontInfo.mk.injEq, true_and]
        rw [Finset.union_comm, Finset.insert_union, Finset.empty_union]
  · rw [runUpd, if_neg hn, idealAt,
      if_neg (by simp [Bool.not_eq_true] at hn ⊢; simp [hn])]
    rfl

/-- A run fold equals the ideal record of its run list, merged in. -/
theorem runUpd_ideal (f : String) :
    ∀ (runs : List Run) (o : Option FontInfo),
      runs.foldl (runUpd f) o = optMerge o (idealAt runs f) := by
  intro runs
  induction runs with
  | nil =>
    intro o
    rw [List.foldl_nil, idealAt, if_neg (by simp)]
    rfl
  | cons r rest ih =>
    intro o
    rw [List.foldl_cons, ih]
    rw [show r :: rest = [r] ++ rest from rfl, idealAt_append,
      ← optMerge_assoc (fun i hi => idealAt_inv i hi) (fun i hi => idealAt_inv i hi),
      runUpd_single]

/-- Merging an invariant-respecting contribution into nothing keeps it. -/
theorem optMerge_none {c : Option FontInfo} (hc : ∀ i, c = some i → InvInfo i) :
    optMerge none c = c := by
  cases c with
  | none => rfl
  | some ci =>
    simp only [optMerge, Option.getD_none, Option.some.injEq]
    exact mergeInfo_init (hc ci rfl)

/-- The paragraph map at a reportable font name is exactly the ideal
record of the paragraph's readable runs. -/
theorem analyzeParagraphFonts_lookup (p : Para) {f : String}
    (hf0 : f ≠ "") (hfi : isInternalFont f = false) (hfu : f ≠ "(unknown)") :
    lookupAssoc (analyzeParagraphFonts p) f = idealAt (runsOfPara p) f := by
  unfold analyzeParagraphFonts
  have hfin : ∀ st : ParaState,
      lookupAssoc (paraFinalize st) f = lookupAssoc st.fonts f := by
    intro st
    unfold paraFinalize
    split_ifs with h
    · rw [lookupAssoc_setAssoc, if_neg (fun hh => hfu hh.symm)]
    · rfl
  rw [hfin, para_fold_lookup hf0 hfi,
    show lookupAssoc ([] : FontMapA) f = none from rfl, runUpd_ideal,
    optMerge_none (fun i hi => idealAt_inv i hi)]

/-- Under the invariant the merge is the pointwise union. -/
theorem mergeInfo_eq_combine {a b : FontInfo} (hb : InvInfo b) :
    mergeInfo a b = combineInfo a b := by
  obtain ⟨bv, bs⟩ := b
  cases bv with
  | true => simp [mergeInfo, combineInfo]
  | false =>
    have hbs : bs = ∅ := by
      by_contra hne
      have := hb (Finset.nonempty_iff_ne_empty.mpr hne)
      simp at this
    simp [mergeInfo, combineInfo, hbs]

/-- Under the invariant `optMerge` is the optional union. -/
theorem optMerge_eq_combine {o c : Option FontInfo}
    (hc : ∀ i, c = some i → InvInfo i) : optMerge o c = combineOptC o c := by
  cases o with
  | none =>
    cases c with
    | none => rfl
    | some ci =>
      simp only [optMerge, combineOptC, Option.getD_none, Option.some.injEq]
      exact mergeInfo_init (hc ci rfl)
  | some oi =>
    cases c with
    | none => rfl
    | some ci =>
      simp only [optMerge, combineOptC, Option.getD_some, Option.some.injEq]
      exact mergeInfo_eq_combine (hc ci rfl)

/-- Merging one paragraph map acts on key `f` as its ideal record. -/
theorem mergeFM_para_lookup {f : String} (hf0 : f ≠ "")
    (hfi : isInternalFont f = false) (hfu : f ≠ "(unknown)")
    (m : FontMapA) (p : Para) :
    lookupAssoc (mergeFM m (analyzeParagraphFonts p)) f =
      optMerge (lookupAssoc m f) (idealAt (runsOfPara p) f) := by
  rw [lookupAssoc_mergeFM _ (keysNodup_analyzeParagraphFonts p),
    analyzeParagraphFonts_lookup p hf0 hfi hfu]

/-- `mergeParas` acts on key `f` as the ideal record of all runs. -/
theorem mergeParas_lookup {f : String} (hf0 : f ≠ "")
    (hfi : isInternalFont f = false) (hfu : f ≠ "(unknown)") :
    ∀ (paras : List Para) (m : FontMapA),
      lookupAssoc (mergeParas m paras) f =
        optMerge (lookupAssoc m f) (idealAt (runsOfParas paras) f) := by
  intro paras
  induction paras with
  | nil =>
    intro m
    rw [show mergeParas m [] = m from rfl, show runsOfParas [] = [] from rfl,
      idealAt, if_neg (by simp)]
    rfl
  | cons p rest ih =>
    intro m
    rw [mergeParas, List.foldl_cons, ← mergeParas, ih,
      mergeFM_para_lookup hf0 hfi hfu, runsOfParas_cons, idealAt_append,
      ← optMerge_assoc (fun i hi => idealAt_inv i hi) (fun i hi => idealAt_inv i hi)]

/-- The runs of one table row. -/
def rowRuns (row : List (List Para)) : List Run :=
  row.foldl (fun acc cell => acc ++ runsOfParas cell) []

/-- Row folds unfold one cell at a time. -/
theorem rowRuns_cons (cell : List Para) (rrest : List (List Para)) :
    rowRuns (cell :: rrest) = runsOfParas cell ++ rowRuns rrest := by
  unfold rowRuns
  simp only [List.foldl_cons, List.nil_append]
  exact foldl_append_shift runsOfParas rrest (runsOfParas cell)

/-- `runsOfTable` unfolds one row at a time. -/
theorem runsOfTable_cons (row : List (List Para)) (rest : List (List (List Para))) :
    runsOfTable (row :: rest) = rowRuns row ++ runsOfTable rest := by
  unfold runsOfTable rowRuns
  simp only [List.foldl_cons, List.nil_append]
  have hstep : ∀ (l : List (List (List Para))) (acc : List Run),
      l.foldl (fun acc row => row.foldl (fun a cell => a ++ runsOfParas cell) acc) acc =
        acc ++ l.foldl (fun acc row => row.foldl (fun a cell => a ++ runsOfParas cell) acc) [] := by
    intro l
    induction l with
    | nil => intro acc; simp
    | cons row' rest' ih =>
      intro acc
      simp only [List.foldl_cons, List.nil_append]
      rw [foldl_append_shift runsOfParas row' acc, ih, ih
        (row'.foldl (fun a cell => a ++ runsOfParas cell) []), List.append_assoc]
  exact hstep rest _

/-- Merging one table row acts on key `f` as its ideal record. -/
theorem mergeRow_lookup {f : String} (hf0 : f ≠ "")
    (hfi : isInternalFont f = false) (hfu : f ≠ "(unknown)") :
    ∀ (row : List (List Para)) (m : FontMapA),
      lookupAssoc (row.foldl (fun acc cell => mergeParas acc cell) m) f =
        optMerge (lookupAssoc m f) (idealAt (rowRuns row) f) := by
  intro row
  induction row with
  | nil =>
    intro m
    rw [List.foldl_nil, show rowRuns [] = [] from rfl, idealAt, if_neg (by simp)]
    rfl
  | cons cell rrest ih =>
    intro m
    rw [List.foldl_cons, ih, mergeParas_lookup hf0 hfi hfu, rowRuns_cons,
      idealAt_append,
      ← optMerge_assoc (fun i hi => idealAt_inv i hi) (fun i hi => idealAt_inv i hi)]

/-- `mergeTable` acts on key `f` as the ideal record of the table's
runs. -/
theorem mergeTable_lookup {f : String} (hf0 : f ≠ "")
    (hfi : isInternalFont f = false) (hfu : f ≠ "(unknown)") :
    ∀ (rows : List (List (List Para))) (m : FontMapA),
      lookupAssoc (mergeTable m rows) f =
        optMerge (lookupAssoc m f) (idealAt (runsOfTable rows) f) := by
  intro rows
  induction rows with
  | nil =>
    intro m
    rw [show mergeTable m [] = m from rfl, show runsOfTable [] = [] from rfl,
      idealAt, if_neg (by simp)]
    rfl
  | cons row rest ih =>
    intro m
    rw [mergeTable, List.foldl_cons, ← mergeTable, ih,
      mergeRow_lookup hf0 hfi hfu, runsOfTable_cons, idealAt_append,
      ← optMerge_assoc (fun i hi => idealAt_inv i hi) (fun i hi => idealAt_inv i hi)]

/-- The child-run fold shifts its accumulator. -/
theorem runsOfChildren_shift : ∀ (l : List ShapeT) (acc : List Run),
    runsOfChildren acc l = acc ++ runsOfChildren [] l := by
  intro l
  induction l with
  | nil => intro acc; simp [runsOfChildren]
  | cons c cs ih =>
    intro acc
    rw [runsOfChildren, runsOfChildren, ih (acc ++ runsOfShape c),
      ih ([] ++ runsOfShape c)]
    simp [List.append_assoc]

mutual

/-- The shape map at a reportable font name is exactly the ideal record
of the shape's readable runs (text frame, table and nested groups
included). -/
theorem analyzeShapeFonts_lookup {f : String} (hf0 : f ≠ "")
    (hfi : isInternalFont f = false) (hfu : f ≠ "(unknown)") :
    ∀ s : ShapeT, lookupAssoc (analyzeShapeFonts s) f = idealAt (runsOfShape s) f
  | .mk n tf tbl children => by
    rw [analyzeShapeFonts.eq_def, runsOfShape.eq_def]
    dsimp only
    rw [mergeChildren_lookup hf0 hfi hfu children]
    cases tf with
    | none =>
      cases tbl with
      | none =>
        dsimp only
        rw [show lookupAssoc ([] : FontMapA) f = none from rfl,
          optMerge_none (fun i hi => idealAt_inv i hi)]
      | some rows =>
        dsimp only
        rw [mergeTable_lookup hf0 hfi hfu,
          show lookupAssoc ([] : FontMapA) f = none from rfl,
          optMerge_none (fun i hi => idealAt_inv i hi),
          optMerge_eq_combine (fun i hi => idealAt_inv i hi), ← idealAt_append,
          runsOfChildren_shift children ([] ++ runsOfTable rows),
          List.nil_append]
    | some paras =>
      cases tbl with
      | none =>
        dsimp only
        rw [mergeParas_lookup hf0 hfi hfu,
          show lookupAssoc ([] : FontMapA) f = none from rfl,
          optMerge_none (fun i hi => idealAt_inv i hi),
          optMerge_eq_combine (fun i hi => idealAt_inv i hi), ← idealAt_append,
          runsOfChildren_shift children (runsOfParas paras)]
      | some rows =>
        dsimp only
        rw [mergeTable_lookup hf0 hfi hfu, mergeParas_lookup hf0 hfi hfu,
          show lookupAssoc ([] : FontMapA) f = none from rfl,
          optMerge_none (fun i hi => idealAt_inv i hi),
          optMerge_assoc (fun i hi => idealAt_inv i hi) (fun i hi => idealAt_inv i hi),
          ← idealAt_append,
          optMerge_eq_combine (fun i hi => idealAt_inv i hi), ← idealAt_append,
          runsOfChildren_shift children (runsOfParas paras ++ runsOfTable rows),
          List.append_assoc]

/-- Merging group children acts on key `f` as the ideal record of their
runs. -/
theorem mergeChildren_lookup {f : String} (hf0 : f ≠ "")
    (hfi : isInternalFont f = false) (hfu : f ≠ "(unknown)") :
    ∀ (l : List ShapeT) (m : FontMapA),
      lookupAssoc (mergeChildren m l) f =
        optMerge (lookupAssoc m f) (idealAt (runsOfChildren [] l) f)
  | [], m => by
    rw [mergeChildren, show runsOfChildren [] ([] : List ShapeT) = [] from rfl,
      idealAt, if_neg (by simp)]
    rfl
  | c :: cs, m => by
    rw [mergeChildren, mergeChildren_lookup hf0 hfi hfu cs,
      lookupAssoc_mergeFM _ (keysNodup_analyzeShapeFonts c),
      analyzeShapeFonts_lookup hf0 hfi hfu c,
      runsOfChildren, runsOfChildren_shift cs ([] ++ runsOfShape c),
      List.nil_append, idealAt_append,
      ← optMerge_assoc (fun i hi => idealAt_inv i hi) (fun i hi => idealAt_inv i hi)]

end

/-- The per-slide dictionary built by the shape loop of
`analyze_fonts`, starting from `sa`. -/
def assignShapes (sa : ShapeAssign) (shapes : List (Except Unit ShapeT)) :
    ShapeAssign :=
  shapes.foldl
    (fun sa shE =>
      match shE with
      | .error _ => sa
      | .ok sh =>
        if analyzeShapeFonts sh = [] then sa
        else setAssoc sa (shapeType sh) (analyzeShapeFonts sh))
    sa

/-- A shape touches only its own slide's entry. -/
theorem shapeStep_fu_other {num k : ℕ} (hk : k ≠ num) (st : AnalyzeState)
    (shE : Except Unit ShapeT) : (shapeStep num st shE).fu k = st.fu k := by
  cases shE with
  | error e => rfl
  | ok sh =>
    simp only [shapeStep]
    split_ifs with hemp
    · rfl
    · simp [hk]

/-- A whole shape list touches only its own slide's entry. -/
theorem foldl_shapeStep_fu_other {num k : ℕ} (hk : k ≠ num) :
    ∀ (shapes : List (Except Unit ShapeT)) (st : AnalyzeState),
      ((shapes.foldl (shapeStep num) st).fu) k = st.fu k := by
  intro shapes
  induction shapes with
  | nil => intro st; rfl
  | cons shE rest ih =>
    intro st
    rw [List.foldl_cons, ih, shapeStep_fu_other hk]

/-- The shape loop extends an existing slide entry by `assignShapes`. -/
theorem foldl_shapeStep_fu_some {num : ℕ} :
    ∀ (shapes : List (Except Unit ShapeT)) (st : AnalyzeState) (sa : ShapeAssign),
      st.fu num = some sa →
      ((shapes.foldl (shapeStep num) st).fu) num = some (assignShapes sa shapes) := by
  intro shapes
  induction shapes with
  | nil => intro st sa h; exact h
  | cons shE rest ih =>
    intro st sa h
    rw [List.foldl_cons]
    cases shE with
    | error e => exact ih _ sa h
    | ok sh =>
      simp only [shapeStep]
      split_ifs with hemp
      · rw [show assignShapes sa (.ok sh :: rest) = assignShapes sa rest by
          simp [assignShapes, hemp]]
        exact ih _ sa h
      · rw [show assignShapes sa (.ok sh :: rest) =
            assignShapes (setAssoc sa (shapeType sh) (analyzeShapeFonts sh)) rest by
          simp [assignShapes, hemp]]
        apply ih
        simp [h]

/-- Starting a nonempty entry keeps it nonempty. -/
theorem assignShapes_ne_nil :
    ∀ (shapes : List (Except Unit ShapeT)) (sa : ShapeAssign), sa ≠ [] →
      assignShapes sa shapes ≠ [] := by
  intro shapes
  induction shapes with
  | nil => intro sa h; exact h
  | cons shE rest ih =>
    intro sa h
    cases shE with
    | error e => exact ih sa h
    | ok sh =>
      by_cases hemp : analyzeShapeFonts sh = []
      · rw [show assignShapes sa (.ok sh :: rest) = assignShapes sa rest by
          simp [assignShapes, hemp]]
        exact ih sa h
      · rw [show assignShapes sa (.ok sh :: rest) =
            assignShapes (setAssoc sa (shapeType sh) (analyzeShapeFonts sh)) rest by
          simp [assignShapes, hemp]]
        apply ih
        cases sa with
        | nil => simp [setAssoc]
        | cons p r =>
          rw [setAssoc]
          split_ifs <;> simp

/-- The shape loop creates a fresh slide entry by `assignShapes` from
the empty dictionary (or none at all when no shape contributes). -/
theorem foldl_shapeStep_fu_none {num : ℕ} :
    ∀ (shapes : List (Except Unit ShapeT)) (st : AnalyzeState),
      st.fu num = none →
      ((shapes.foldl (shapeStep num) st).fu) num =
        (if assignShapes [] shapes = [] then none else some (assignShapes [] shapes)) := by
  intro shapes
  induction shapes with
  | nil =>
    intro st h
    simp only [List.foldl_nil, h]
    rw [if_pos (show assignShapes [] ([] : List (Except Unit ShapeT)) = [] from rfl)]
  | cons shE rest ih =>
    intro st h
    rw [List.foldl_cons]
    cases shE with
    | error e =>
      rw [show shapeStep num st (.error e) = st from rfl, ih _ h]
      rfl
    | ok sh =>
      by_cases hemp : analyzeShapeFonts sh = []
      · rw [show shapeStep num st (.ok sh) = st by simp [shapeStep, hemp]]
        rw [ih _ h]
        rw [show assignShapes [] (.ok sh :: rest) = assignShapes [] rest by
          simp [assignShapes, hemp]]
      · have hstep : (shapeStep num st (.ok sh)).fu num =
            some (setAssoc [] (shapeType sh) (analyzeShapeFonts sh)) := by
          simp [shapeStep, hemp, h]
        rw [foldl_shapeStep_fu_some rest _ _ hstep]
        have hasg : assignShapes [] (.ok sh :: rest) =
            assignShapes (setAssoc [] (shapeType sh) (analyzeShapeFonts sh)) rest := by
          simp [assignShapes, hemp]
        rw [hasg, if_neg (assignShapes_ne_nil rest _ (by simp [setAssoc]))]

/-- A numbered slide touches only its own number. -/
theorem slideStep_fu_other {k : ℕ} (st : AnalyzeState) (nb : ℕ × SlideE)
    (hk : k ≠ nb.1) : (slideStep st nb).fu k = st.fu k := by
  obtain ⟨num, slE⟩ := nb
  cases slE with
  | error e => rfl
  | ok shapes => exact foldl_shapeStep_fu_other hk shapes st

/-- The `font_usage` map of `analyze_fonts`, read off per slide number:
the slide's `assignShapes` dictionary when the slide exists, is readable
and some shape contributed; nothing otherwise. -/
theorem analyzeFontsNumbered_fu :
    ∀ (doc : Document) (n₀ : ℕ) (st : AnalyzeState),
      (∀ j, n₀ ≤ j → st.fu j = none) → ∀ k,
      ((numbered n₀ doc).foldl slideStep st).fu k =
        if k < n₀ then st.fu k
        else
          match doc.get? (k - n₀) with
          | some (.ok shapes) =>
              (if assignShapes [] shapes = [] then none
               else some (assignShapes [] shapes))
          | _ => none := by
  intro doc
  induction doc with
  | nil =>
    intro n₀ st hst k
    rw [show numbered n₀ [] = [] from rfl, List.foldl_nil]
    split_ifs with hlt
    · rfl
    · rw [show ([] : Document).get? (k - n₀) = none from rfl]
      exact hst k (Nat.le_of_not_lt hlt)
  | cons slE rest ih =>
    intro n₀ st hst k
    rw [show numbered n₀ (slE :: rest) = (n₀, slE) :: numbered (n₀ + 1) rest from rfl,
      List.foldl_cons]
    have hst' : ∀ j, n₀ + 1 ≤ j → (slideStep st (n₀, slE)).fu j = none := by
      intro j hj
      rw [slideStep_fu_other st (n₀, slE) (by omega)]
      exact hst j (by omega)
    rw [ih (n₀ + 1) _ hst']
    by_cases hlt : k < n₀
    · rw [if_pos (by omega), if_pos hlt,
        slideStep_fu_other st (n₀, slE) (by omega)]
    · by_cases heq : k = n₀
      · subst heq
        rw [if_pos (by omega), if_neg (by omega),
          show k - k = 0 from by omega,
          show (slE :: rest).get? 0 = some slE from rfl]
        cases slE with
        | error e =>
          exact hst k (by omega)
        | ok shapes =>
          exact foldl_shapeStep_fu_none shapes st (hst k (by omega))
      · rw [if_neg (by omega), if_neg (by omega),
          show k - n₀ = (k - (n₀ + 1)) + 1 from by omega,
          show (slE :: rest).get? ((k - (n₀ + 1)) + 1) = rest.get? (k - (n₀ + 1)) from rfl]

/-- The runs of a list of shapes, in traversal order. -/
def slideRuns (shs : List ShapeT) : List Run :=
  shs.foldl (fun acc sh => acc ++ runsOfShape sh) []

/-- `slideRuns` unfolds one shape at a time. -/
theorem slideRuns_cons (sh : ShapeT) (rest : List ShapeT) :
    slideRuns (sh :: rest) = runsOfShape sh ++ slideRuns rest := by
  unfold slideRuns
  simp only [List.foldl_cons, List.nil_append]
  exact foldl_append_shift runsOfShape rest (runsOfShape sh)

/-- `filterMap` respects pointwise-equal functions. -/
theorem filterMap_congr_mem {α β : Type} :
    ∀ (l : List α) (g h : α → Option β), (∀ a ∈ l, g a = h a) →
      l.filterMap g = l.filterMap h := by
  intro l
  induction l with
  | nil => intro g h _; rfl
  | cons a rest ih =>
    intro g h H
    rw [List.filterMap_cons, List.filterMap_cons, H a (List.mem_cons_self a rest),
      ih g h (fun x hx => H x (List.mem_cons_of_mem a hx))]

/-- The per-slide dictionary, as the list of contributing shapes (under
distinct shape names). -/
theorem assignShapes_filterMap (f : String) :
    ∀ (shapes : List (Except Unit ShapeT)) (sa : ShapeAssign),
      ((shapes.filterMap okShape).map shapeType).Nodup →
      (∀ sh ∈ shapes.filterMap okShape, shapeType sh ∉ sa.map Prod.fst) →
      (assignShapes sa shapes).filterMap (fun p => lookupAssoc p.2 f) =
        sa.filterMap (fun p => lookupAssoc p.2 f) ++
          (shapes.filterMap okShape).filterMap
            (fun sh => lookupAssoc (analyzeShapeFonts sh) f) := by
  intro shapes
  induction shapes with
  | nil =>
    intro sa _ _
    simp [assignShapes]
  | cons shE rest ih =>
    intro sa hnd hdisj
    cases shE with
    | error e =>
      rw [show assignShapes sa (.error e :: rest) = assignShapes sa rest from rfl,
        show (Except.error e :: rest).filterMap okShape = rest.filterMap okShape
          from by simp [okShape, List.filterMap_cons]]
      rw [show (Except.error e :: rest).filterMap okShape = rest.filterMap okShape
          from by simp [okShape, List.filterMap_cons]] at hnd hdisj
      exact ih sa hnd hdisj
    | ok sh =>
      have hok : (Except.ok sh :: rest).filterMap okShape =
          sh :: rest.filterMap okShape := by
        simp [okShape, List.filterMap_cons]
      rw [hok]
      rw [hok] at hnd hdisj
      rw [List.map_cons, List.nodup_cons] at hnd
      by_cases hemp : analyzeShapeFonts sh = []
      · rw [show assignShapes sa (.ok sh :: rest) = assignShapes sa rest by
          simp [assignShapes, hemp]]
        rw [List.filterMap_cons,
          show lookupAssoc (analyzeShapeFonts sh) f = none by
            rw [hemp]; rfl]
        exact ih sa hnd.2 (fun s hs => hdisj s (List.mem_cons_of_mem sh hs))
      · have hfresh : lookupAssoc sa (shapeType sh) = none := by
          rw [lookupAssoc_eq_none_iff]
          exact hdisj sh (List.mem_cons_self sh _)
        rw [show assignShapes sa (.ok sh :: rest) =
            assignShapes (setAssoc sa (shapeType sh) (analyzeShapeFonts sh)) rest by
          simp [assignShapes, hemp]]
        rw [setAssoc_fresh sa _ _ hfresh] at *
        have hdisj' : ∀ s ∈ rest.filterMap okShape,
            shapeType s ∉ (sa ++ [(shapeType sh, analyzeShapeFonts sh)]).map Prod.fst := by
          intro s hs
          rw [List.map_append, List.mem_append]
          rintro (hin | hin)
          · exact hdisj s (List.mem_cons_of_mem sh hs) hin
          · simp only [List.map_cons, List.map_nil, List.mem_singleton] at hin
            exact hnd.1 (hin ▸ List.mem_map.mpr ⟨s, hs, rfl⟩)
        rw [ih _ hnd.2 hdisj', List.filterMap_append, List.filterMap_cons]
        cases hc : lookupAssoc (analyzeShapeFonts sh) f with
        | none => simp [List.filterMap_cons, hc]
        | some c => simp [List.filterMap_cons, hc]

/-- Threading a concrete record through the option fold. -/
theorem foldl_optMerge_some (g : ShapeT → Option FontInfo) :
    ∀ (shs : List ShapeT) (b : FontInfo),
      shs.foldl (fun o sh => optMerge o (g sh)) (some b) =
        some ((shs.filterMap g).foldl mergeInfo b) := by
  intro shs
  induction shs with
  | nil => intro b; rfl
  | cons sh rest ih =>
    intro b
    rw [List.foldl_cons, List.filterMap_cons]
    cases hg : g sh with
    | none => rw [show optMerge (some b) none = some b from rfl, ih]
    | some c =>
      rw [show optMerge (some b) (some c) = some (mergeInfo b c) from rfl, ih,
        List.foldl_cons]

/-- The source's "`[]` means no entry" fold equals the option fold. -/
theorem optFold_eq_foldl (g : ShapeT → Option FontInfo) :
    ∀ shs : List ShapeT,
      (match shs.filterMap g with
       | [] => none
       | l => some (l.foldl mergeInfo .init)) =
        shs.foldl (fun o sh => optMerge o (g sh)) none := by
  intro shs
  induction shs with
  | nil => rfl
  | cons sh rest ih =>
    rw [List.foldl_cons, List.filterMap_cons]
    cases hg : g sh with
    | none => rw [show optMerge none none = none from rfl, ih]
    | some c =>
      rw [show optMerge none (some c) = some (mergeInfo FontInfo.init c) from rfl,
        foldl_optMerge_some]
      dsimp only
      rw [List.foldl_cons]

/-- The option fold of the shapes' ideal records is the ideal record of
all their runs. -/
theorem foldl_optMerge_ideal (f : String) :
    ∀ (shs : List ShapeT) (o : Option FontInfo),
      shs.foldl (fun o sh => optMerge o (idealAt (runsOfShape sh) f)) o =
        optMerge o (idealAt (slideRuns shs) f) := by
  intro shs
  induction shs with
  | nil =>
    intro o
    rw [List.foldl_nil, show slideRuns [] = [] from rfl, idealAt,
      if_neg (by simp)]
    rfl
  | cons sh rest ih =>
    intro o
    rw [List.foldl_cons, ih, slideRuns_cons, idealAt_append,
      ← optMerge_assoc (fun i hi => idealAt_inv i hi) (fun i hi => idealAt_inv i hi)]

/-- An empty per-slide dictionary means no shape contributed a map. -/
theorem assignShapes_nil_all_empty :
    ∀ (shapes : List (Except Unit ShapeT)),
      assignShapes [] shapes = [] →
      ∀ sh ∈ shapes.filterMap okShape, analyzeShapeFonts sh = [] := by
  intro shapes
  induction shapes with
  | nil => intro _ sh hs; exact absurd hs (by simp)
  | cons shE rest ih =>
    intro h sh hs
    cases shE with
    | error e =>
      rw [show assignShapes [] (.error e :: rest) = assignShapes [] rest from rfl] at h
      rw [show (Except.error e :: rest).filterMap okShape = rest.filterMap okShape
        from by simp [okShape, List.filterMap_cons]] at hs
      exact ih h sh hs
    | ok sh0 =>
      by_cases hemp : analyzeShapeFonts sh0 = []
      · rw [show assignShapes [] (.ok sh0 :: rest) = assignShapes [] rest by
          simp [assignShapes, hemp]] at h
        rw [show (Except.ok sh0 :: rest).filterMap okShape =
            sh0 :: rest.filterMap okShape from by simp [okShape, List.filterMap_cons]] at hs
        rcases List.mem_cons.mp hs with rfl | hs'
        · exact hemp
        · exact ih h sh hs'
      · exfalso
        rw [show assignShapes [] (.ok sh0 :: rest) =
            assignShapes (setAssoc [] (shapeType sh0) (analyzeShapeFonts sh0)) rest by
          simp [assignShapes, hemp]] at h
        exact assignShapes_ne_nil rest _ (by simp [setAssoc]) h

/-- A fold of absent contributions stays absent. -/
theorem foldl_optMerge_none_of_all (g : ShapeT → Option FontInfo) :
    ∀ shs : List ShapeT, (∀ sh ∈ shs, g sh = none) →
      shs.foldl (fun o sh => optMerge o (g sh)) none = none := by
  intro shs
  induction shs with
  | nil => intro _; rfl
  | cons sh rest ih =>
    intro h
    rw [List.foldl_cons, h sh (List.mem_cons_self sh rest)]
    exact ih (fun s hs => h s (List.mem_cons_of_mem sh hs))

/-- The scenario document of claim C4: one slide, one shape, a visible
18 pt (228600 EMU) Calibri run and a whitespace-only 10 pt (127000 EMU)
Calibri run. -/
def c4ScenarioDoc : Document :=
  [.ok [.ok (.mk "Title 1"
    (some [[.ok ⟨"hello", some "Calibri", some 228600⟩,
            .ok ⟨"  ", some "Calibri", some 127000⟩]]) none [])]]

/-- Two same-named shapes on one slide: the first holds the only visible
Calibri run, the second a whitespace-only Calibri run. -/
def c4DupDoc : Document :=
  [.ok [.ok (.mk "A" (some [[.ok ⟨"hello", some "Calibri", none⟩]]) none []),
        .ok (.mk "A" (some [[.ok ⟨"  ", some "Calibri", none⟩]]) none [])]]

/-- C4 counterexample: with two shapes named `A` on one slide, the
per-slide index entry of the first is overwritten by the second
(`font_usage[slide_num][shape_type] = fonts` assigns), so the Calibri
record for the slide reports no visible text although a visible Calibri
run exists on the slide — `hasVisibleText` is not "true exactly when
some contributing run has non-whitespace text". -/
theorem duplicate_shape_names_lose_visibility :
    fontToSlides (analyzeFonts c4DupDoc).fu "Calibri" 1 = some ⟨false, ∅⟩ ∧
      ((runsOnSlide c4DupDoc 1).any
        (fun r => namedWith "Calibri" r && hasNonWs r.text)) = true := by
  exact ⟨by decide, by decide⟩

/-- C4 amended: provided no two shapes of a slide share a name, the final
per-slide record of every reportable font name is exactly the ideal
record of the slide's readable runs: present iff some run carries the
name, `hasVisibleText` true iff some such run has non-whitespace text,
and the size set exactly the sizes of the visible such runs (so a
whitespace-only run is recorded but not visible and its size excluded);
and the claim's scenario holds: one visible 18 pt and one whitespace-only
10 pt Calibri run yield the record `⟨true, {18}⟩`. -/
theorem fontToSlides_matches_runs :
    (∀ (doc : Document) (f : String) (sl : ℕ),
      f ≠ "" → isInternalFont f = false → f ≠ "(unknown)" →
      (∀ shapes, Except.ok shapes ∈ doc →
        ((shapes.filterMap okShape).map shapeType).Nodup) →
      fontToSlides (analyzeFonts doc).fu f sl = idealAt (runsOnSlide doc sl) f) ∧
    fontToSlides (analyzeFonts c4ScenarioDoc).fu "Calibri" 1 =
      some ⟨true, {18}⟩ := by
  constructor
  · intro doc f sl hf0 hfi hfu hnodup
    have hfu_char : (analyzeFonts doc).fu sl =
        (if sl < 1 then none
         else
          match doc.get? (sl - 1) with
          | some (.ok shapes) =>
              (if assignShapes [] shapes = [] then none
               else some (assignShapes [] shapes))
          | _ => none) :=
      analyzeFontsNumbered_fu doc 1 ⟨fun _ => none, []⟩ (fun _ _ => rfl) sl
    unfold fontToSlides
    rw [if_pos ⟨hf0, hfi⟩, hfu_char]
    by_cases hsl0 : sl < 1
    · have hz : sl = 0 := by omega
      subst hz
      rw [if_pos hsl0, show runsOnSlide doc 0 = [] from rfl, idealAt,
        if_neg (by simp)]
      rfl
    · rw [if_neg hsl0]
      have hslnz : ¬ sl = 0 := by omega
      cases hget : doc.get? (sl - 1) with
      | none =>
        rw [runsOnSlide, if_neg hslnz, hget]
        rw [idealAt, if_neg (by simp)]
        rfl
      | some slE =>
        cases slE with
        | error e =>
          rw [runsOnSlide, if_neg hslnz, hget]
          rw [idealAt, if_neg (by simp)]
          rfl
        | ok shapes =>
          have hmem : Except.ok shapes ∈ doc := List.get?_mem hget
          have hnd := hnodup shapes hmem
          rw [runsOnSlide, if_neg hslnz, hget]
          dsimp only
          by_cases hemp : assignShapes [] shapes = []
          · rw [if_pos hemp]
            have hall : ∀ sh ∈ shapes.filterMap okShape,
                idealAt (runsOfShape sh) f = none := by
              intro sh hs
              rw [← analyzeShapeFonts_lookup hf0 hfi hfu sh,
                assignShapes_nil_all_empty shapes hemp sh hs]
              rfl
            have h1 := foldl_optMerge_none_of_all
              (fun sh => idealAt (runsOfShape sh) f) (shapes.filterMap okShape) hall
            rw [foldl_optMerge_ideal f, optMerge_none (fun i hi => idealAt_inv i hi)]
              at h1
            rw [show (shapes.filterMap (fun shE =>
                match shE with | .ok sh => some sh | .error _ => none)).foldl
                  (fun acc sh => acc ++ runsOfShape sh) [] =
                slideRuns (shapes.filterMap okShape) from rfl, h1]
            rfl
          · rw [if_neg hemp]
            rw [show (some (assignShapes [] shapes)).getD [] =
              assignShapes [] shapes from rfl]
            rw [assignShapes_filterMap f shapes [] hnd (by simp)]
            rw [show ([] : ShapeAssign).filterMap (fun p => lookupAssoc p.2 f) = []
              from rfl, List.nil_append]
            rw [filterMap_congr_mem (shapes.filterMap okShape) _
              (fun sh => idealAt (runsOfShape sh) f)
              (fun sh _ => analyzeShapeFonts_lookup hf0 hfi hfu sh)]
            rw [optFold_eq_foldl, foldl_optMerge_ideal f,
              optMerge_none (fun i hi => idealAt_inv i hi)]
            rfl
  · decide

/-- Witness for C4's amended theorem at the scenario document. -/
theorem fontToSlides_matches_runs_witness :
    fontToSlides (analyzeFonts c4ScenarioDoc).fu "Calibri" 1 =
      idealAt (runsOnSlide c4ScenarioDoc 1) "Calibri" :=
  fontToSlides_matches_runs.1 c4ScenarioDoc "Calibri" 1 (by decide) (by decide)
    (by decide)
    (by
      intro shapes h
      simp only [c4ScenarioDoc, List.mem_singleton, Except.ok.injEq] at h
      subst h
      decide)

end PointAssisters
